import Mathlib

/-!
# SimplexNoise: a shallow embedding of `SimplexNoise.cpp`

The static class `SimplexNoise` of `src/SimplexNoise.cpp` is embedded as pure
functions over an explicit state.

* `uint8_t` tables are lists of naturals (`perm`, `permMod12`: 512 entries each,
  `p`: 256 entries); `State.WF` records the array sizes and the `uint8_t` range.
* `int32_t` values are integers, with `wrapInt32` applied wherever the source
  computes in `int32_t` (the cast in `fastFloor`, `xi - 1`, `i + j`).
* `double` arithmetic is taken over an ordered field `K` with a floor function;
  the constants `F2`, `G2` are parameters of the generic functions and are
  instantiated over the reals by `F2` and `G2` below.  A division by zero has
  no real value and is `none` (`fdiv`).
* `mapNoise` is written over any arithmetic, and is also evaluated in IEEE 754
  binary64 (`F64`: rounding to nearest, overflow to an infinity, NaN).
* The Arduino core functions `randomSeed`, `random` and `millis` are not part
  of the repository: the generator is a parameter (`Rng`), and the value that
  `millis()` returns at a call is an argument of that call.
-/

namespace SimplexNoise

/-! ## Data -/

/-- Helper class for gradient vectors (`class Grad`, three `int8_t` fields). -/
structure Grad where
  x : Int
  y : Int
  z : Int
deriving DecidableEq, Repr

/-- The gradient vectors `grad3[12]`. -/
def grad3 : List Grad :=
  [⟨1, 1, 0⟩, ⟨-1, 1, 0⟩, ⟨1, -1, 0⟩, ⟨-1, -1, 0⟩, ⟨1, 0, 1⟩,
   ⟨-1, 0, 1⟩, ⟨1, 0, -1⟩, ⟨-1, 0, -1⟩, ⟨0, 1, 1⟩, ⟨0, -1, 1⟩,
   ⟨0, 1, -1⟩, ⟨0, -1, -1⟩]

/-- The original permutation table `p[256]`. -/
def p : List Nat :=
  [151,160,137,91,90,15,131,13,201,95,96,53,194,233,7,225,140,36,103,30,69,
   142,8,99,37,240,21,10,23,190,6,148,247,120,234,75,0,26,197,62,94,252,219,
   203,117,35,11,32,57,177,33,88,237,149,56,87,174,20,125,136,171,168,68,175,
   74,165,71,134,139,48,27,166,77,146,158,231,83,111,229,122,60,211,133,230,
   220,105,92,41,55,46,245,40,244,102,143,54,65,25,63,161,1,216,80,73,209,76,
   132,187,208,89,18,169,200,196,135,130,116,188,159,86,164,100,109,198,173,
   186,3,64,52,217,226,250,124,123,5,202,38,147,118,126,255,82,85,212,207,206,
   59,227,47,16,58,17,182,189,28,42,223,183,170,213,119,248,152,2,44,154,163,
   70,221,153,101,155,167,43,172,9,129,22,39,253,19,98,108,110,79,113,224,232,
   178,185,112,104,218,246,97,228,251,34,242,193,238,210,144,12,191,179,162,
   241,81,51,145,235,249,14,239,107,49,192,214,31,181,199,106,157,184,84,204,
   176,115,121,50,45,127,4,150,254,138,236,205,93,222,114,67,29,24,72,243,141,
   128,195,78,66,215,61,156,180]

/-- The Arduino pseudo-random generator, as far as `generatePerm` uses it:
`randomSeed seed g` is the generator state after `randomSeed(seed)` in state
`g`, and `random howbig g` is the value returned by `random(howbig)` in state
`g` together with the next state. -/
structure Rng (σ : Type) where
  randomSeed : Nat → σ → σ
  random : Nat → σ → Nat × σ

/-- The draws are those of Arduino's `random(howbig)`: a value in
`[0, howbig)` whenever `howbig` is positive. -/
def Rng.InRange {σ : Type} (rng : Rng σ) : Prop :=
  ∀ (howbig : Nat) (g : σ), 0 < howbig → (rng.random howbig g).1 < howbig

/-- The static data members `perm`, `permMod12`, `initialized`, together with
the state `gen` of the Arduino generator. -/
structure State (σ : Type) where
  perm : List Nat
  permMod12 : List Nat
  initialized : Bool
  gen : σ

/-- The tables are `uint8_t[512]` arrays. -/
def State.WF {σ : Type} (st : State σ) : Prop :=
  st.perm.length = 512 ∧ st.permMod12.length = 512 ∧
    (∀ v ∈ st.perm, v < 256) ∧ (∀ v ∈ st.permMod12, v < 256)

/-- The state at program start: `perm = {0}`, `permMod12 = {0}`,
`initialized = false`. -/
def initialState {σ : Type} (g : σ) : State σ :=
  { perm := List.replicate 512 0
    permMod12 := List.replicate 512 0
    initialized := false
    gen := g }

/-! ## Permutation table builder -/

/-- The body of the shuffle loop after the draw:
`temp = a[i]; a[i] = a[j]; a[j] = temp`. -/
def swapAt (a : List Nat) (i j : Nat) : List Nat :=
  let temp := a.getD i 0
  let a1 := a.set i (a.getD j 0)
  a1.set j temp

/-- The Fisher-Yates loop `for (int i = n; i > 0; i--)` with body
`j = random(i + 1); swap(shuffledP[i], shuffledP[j])`. -/
def shuffleLoop {σ : Type} (rng : Rng σ) : Nat → List Nat × σ → List Nat × σ
  | 0, acc => acc
  | i + 1, acc =>
    let r := rng.random (i + 1 + 1) acc.2
    shuffleLoop rng i (swapAt acc.1 (i + 1) r.1, r.2)

/-- One iteration of the fill loop:
`perm[i] = shuffledP[i & 255]; permMod12[i] = (uint8_t)(perm[i] % 12)`. -/
def fillStep (shuffledP : List Nat) (t : List Nat × List Nat) (i : Nat) :
    List Nat × List Nat :=
  let perm := t.1.set i (shuffledP.getD (i &&& 255) 0)
  (perm, t.2.set i (perm.getD i 0 % 12 % 256))

/-- `SimplexNoise::generatePerm(seed)`. -/
def generatePerm {σ : Type} (rng : Rng σ) (seed : Nat) (st : State σ) : State σ :=
  let shuffledP := (List.range 256).map fun i => p.getD i 0
  let g := rng.randomSeed seed st.gen
  let sh := shuffleLoop rng 255 (shuffledP, g)
  let tables := (List.range 512).foldl (fillStep sh.1) (st.perm, st.permMod12)
  { perm := tables.1
    permMod12 := tables.2
    initialized := st.initialized
    gen := sh.2 }

/-- `SimplexNoise::init(uint32_t seed)`. -/
def init {σ : Type} (rng : Rng σ) (seed : Nat) (st : State σ) : State σ :=
  { generatePerm rng seed st with initialized := true }

/-- `SimplexNoise::init()`: `init(millis())`, where `millis` is the value the
clock returns at the call. -/
def initDefault {σ : Type} (rng : Rng σ) (millis : Nat) (st : State σ) : State σ :=
  init rng millis st

/-- `SimplexNoise::reseed(seed)`. -/
def reseed {σ : Type} (rng : Rng σ) (seed : Nat) (st : State σ) : State σ :=
  generatePerm rng seed st

/-! ## Noise evaluation -/

/-- Two's complement wrap of an integer into the `int32_t` range. -/
def wrapInt32 (z : Int) : Int := (z + 2147483648) % 4294967296 - 2147483648

/-- The bit pattern of an `int32_t` as an unsigned 32-bit number. -/
def bits32 (z : Int) : Nat := (z % 4294967296).toNat

section Generic

variable {K : Type} [LinearOrderedField K] [FloorRing K]

/-- The conversion `static_cast<int32_t>(x)`: truncation toward zero (wrapped
into `int32_t`; the conversion is only defined when the truncation fits). -/
def toInt32 (x : K) : Int := wrapInt32 (if 0 ≤ x then ⌊x⌋ else ⌈x⌉)

/-- `SimplexNoise::fastFloor`. -/
def fastFloor (x : K) : Int :=
  let xi := toInt32 x
  if x < (xi : K) then wrapInt32 (xi - 1) else xi

/-- `SimplexNoise::dot`. -/
def dot (g : Grad) (x y : K) : K := (g.x : K) * x + (g.y : K) * y

/-- The contribution of one corner:
`t = 0.5 - x*x - y*y; if (t >= 0) { t *= t; n = t * t * dot(grad3[gi], x, y); }`. -/
def corner (gi : Nat) (x y : K) : K :=
  let t := 0.5 - x * x - y * y
  if t ≥ 0 then
    let t' := t * t
    t' * t' * dot (grad3.getD gi ⟨0, 0, 0⟩) x y
  else 0

/-- The body of `SimplexNoise::noise` after the initialisation check, on given
tables, with the skew constants `F2`, `G2` as parameters. -/
def noiseValue (F2 G2 : K) (perm permMod12 : List Nat) (xin yin : K) : K :=
  let s := (xin + yin) * F2
  let i := fastFloor (xin + s)
  let j := fastFloor (yin + s)
  let t := ((wrapInt32 (i + j) : Int) : K) * G2
  let x0 := xin - ((i : K) - t)
  let y0 := yin - ((j : K) - t)
  let i1 : Nat := if x0 > y0 then 1 else 0
  let j1 : Nat := if x0 > y0 then 0 else 1
  let x1 := x0 - (i1 : K) + G2
  let y1 := y0 - (j1 : K) + G2
  let x2 := x0 - 1.0 + 2.0 * G2
  let y2 := y0 - 1.0 + 2.0 * G2
  let ii := bits32 i &&& 255
  let jj := bits32 j &&& 255
  let gi0 := permMod12.getD (ii + perm.getD jj 0) 0
  let gi1 := permMod12.getD (ii + i1 + perm.getD (jj + j1) 0) 0
  let gi2 := permMod12.getD (ii + 1 + perm.getD (jj + 1) 0) 0
  let n0 := corner gi0 x0 y0
  let n1 := corner gi1 x1 y1
  let n2 := corner gi2 x2 y2
  70.0 * (n0 + n1 + n2)

/-- `SimplexNoise::noise(xin, yin)`: the value returned and the state after the
call.  `millis` is what `millis()` returns if the call reaches `init()`. -/
def noise {σ : Type} (rng : Rng σ) (F2 G2 : K) (millis : Nat) (st : State σ)
    (xin yin : K) : K × State σ :=
  let st' := if !st.initialized then initDefault rng millis st else st
  (noiseValue F2 G2 st'.perm st'.permMod12 xin yin, st')

/-- `SimplexNoise::mapNoise`.  The arithmetic is that of `R`: exact over an
ordered field, rounded over the binary64 values `F64`. -/
def mapNoise {R : Type} [Add R] [Sub R] [Mul R] [Div R] [OfScientific R]
    (n min max : R) : R := min + (max - min) * (n + 1.0) / 2.0

/-- `SimplexNoise::scaledNoise`. -/
def scaledNoise {σ : Type} (rng : Rng σ) (F2 G2 : K) (millis : Nat) (st : State σ)
    (xin yin min max : K) : K × State σ :=
  let r := noise rng F2 G2 millis st xin yin
  (mapNoise r.1 min max, r.2)

/-- The local variables of `fbm` and the static state during its loop. -/
structure FbmAcc (σ : Type) (K : Type) where
  total : K
  frequency : K
  amplitude : K
  maxValue : K
  st : State σ

/-- One iteration of the loop of `fbm`. -/
def fbmStep {σ : Type} (rng : Rng σ) (F2 G2 : K) (millis : Nat) (x y persistence : K)
    (a : FbmAcc σ K) : FbmAcc σ K :=
  let r := noise rng F2 G2 millis a.st (x * a.frequency) (y * a.frequency)
  { total := a.total + r.1 * a.amplitude
    frequency := a.frequency * 2.0
    amplitude := a.amplitude * persistence
    maxValue := a.maxValue + a.amplitude
    st := r.2 }

/-- The loop `for (int i = 0; i < octaves; i++)` of `fbm`, run `n` times. -/
def fbmLoop {σ : Type} (rng : Rng σ) (F2 G2 : K) (millis : Nat) (x y persistence : K) :
    Nat → FbmAcc σ K → FbmAcc σ K
  | 0, a => a
  | n + 1, a => fbmLoop rng F2 G2 millis x y persistence n
      (fbmStep rng F2 G2 millis x y persistence a)

/-- Division of doubles, over the field: a division by zero yields no real
number (`NaN` or an infinity in IEEE arithmetic), which is `none`. -/
def fdiv (a b : K) : Option K := if b = 0 then none else some (a / b)

/-- `SimplexNoise::fbm(x, y, octaves, persistence)`: the value returned and the
state after the call.  The loop runs `octaves` times, not at all when
`octaves <= 0`. -/
def fbm {σ : Type} (rng : Rng σ) (F2 G2 : K) (millis : Nat) (st : State σ)
    (x y : K) (octaves : Int) (persistence : K) : Option K × State σ :=
  let a := fbmLoop rng F2 G2 millis x y persistence octaves.toNat
    { total := 0.0, frequency := 1.0, amplitude := 1.0, maxValue := 0.0, st := st }
  (fdiv a.total a.maxValue, a.st)

/-- `SimplexNoise::scaledFbm`. -/
def scaledFbm {σ : Type} (rng : Rng σ) (F2 G2 : K) (millis : Nat) (st : State σ)
    (x y min max : K) (octaves : Int) (persistence : K) : Option K × State σ :=
  let r := fbm rng F2 G2 millis st x y octaves persistence
  (r.1.map fun v => mapNoise v min max, r.2)

end Generic

/-- The constant `F2 = 0.5 * (sqrt(3.0) - 1.0)`, over the reals. -/
noncomputable def F2 : ℝ := 0.5 * (Real.sqrt 3.0 - 1.0)

/-- The constant `G2 = (3.0 - sqrt(3.0)) / 6.0`, over the reals. -/
noncomputable def G2 : ℝ := (3.0 - Real.sqrt 3.0) / 6.0


/-! ## Auxiliary definitions for the range of `noise`

In the coordinates `u = √3 (x + y)`, `w = x - y` of a corner offset `(x, y)` the
falloff is `t = 1/2 - (u² + 3 w²) / 6`, the three corners of a simplex are at
`(u, w)`, `(u - 1, w ∓ 1)`, `(u - 2, w)`, and every gradient of `grad3` has
`|dot| ≤ max (|u| / √3) |w|`.  `simplexBound` is the resulting bound of
`|n0 + n1 + n2|`; it is checked against `1/70` on a grid by `checkBox`, in
integer arithmetic with grid unit `1 / gridN` and the rational
`kappaNum / kappaDen ≥ 1 / √3`. -/

section Aux
variable {K : Type} [LinearOrderedField K]

/-- Bound of the contribution of one corner, in the coordinates
`u = √3 (x + y)`, `w = x - y`, with `κ` standing for `1 / √3`. -/
def cornerBound (κ u w : K) : K :=
  (max (1 / 2 - (u ^ 2 + 3 * w ^ 2) / 6) 0) ^ 4 * max (κ * |u|) |w|

/-- Sum of the bounds of the three corners of a simplex. -/
def simplexBound (κ u w : K) : K :=
  cornerBound κ u w + cornerBound κ (u - 1) (w - 1) + cornerBound κ (u - 2) w

end Aux

/-- Number of grid units per unit length. -/
def gridN : Int := 1048576

/-- Numerator of the rational upper bound of `1 / √3`. -/
def kappaNum : Int := 57736

/-- Denominator of the rational upper bound of `1 / √3`. -/
def kappaDen : Int := 100000

/-- Lower bound of `t²` for `t` in `[a, b]`. -/
def sqMin (a b : Int) : Int := if a ≤ 0 ∧ 0 ≤ b then 0 else min (a * a) (b * b)

/-- Upper bound of `|t|` for `t` in `[a, b]`. -/
def absMax (a b : Int) : Int := max (-a) b

/-- Upper bound of one corner bound on a box, times `1296 * kappaDen * gridN ^ 9`. -/
def termUp (u1 u2 w1 w2 : Int) : Int :=
  (max (3 * gridN * gridN - (sqMin u1 u2 + 3 * sqMin w1 w2)) 0) ^ 4
    * max (kappaNum * absMax u1 u2) (kappaDen * absMax w1 w2)

/-- The interval bound of `simplexBound` on the box is at most `1/70`. -/
def boxOk (u1 u2 w1 w2 : Int) : Bool :=
  decide (70 * (termUp u1 u2 w1 w2
      + termUp (u1 - gridN) (u2 - gridN) (w1 - gridN) (w2 - gridN)
      + termUp (u1 - 2 * gridN) (u2 - 2 * gridN) w1 w2)
    ≤ 1296 * kappaDen * gridN ^ 9)

/-- The box lies in `2/5 ≤ u ≤ 8/5`, `0 ≤ w ≤ 3/20`, where the bound is proved
directly. -/
def inCore (u1 u2 w1 w2 : Int) : Bool :=
  decide (2 * gridN ≤ 5 * u1 ∧ 5 * u2 ≤ 8 * gridN ∧ 0 ≤ w1 ∧ 20 * w2 ≤ 3 * gridN)

/-- Accept a box when it lies in the core or its interval bound holds; otherwise
halve its longer side and check both halves, `fuel` levels deep. -/
def checkBox : Nat → Int → Int → Int → Int → Bool
  | 0, u1, u2, w1, w2 => inCore u1 u2 w1 w2 || boxOk u1 u2 w1 w2
  | fuel + 1, u1, u2, w1, w2 =>
    inCore u1 u2 w1 w2 || boxOk u1 u2 w1 w2 ||
      (if w2 - w1 ≤ u2 - u1 then
        checkBox fuel u1 ((u1 + u2) / 2) w1 w2 && checkBox fuel ((u1 + u2) / 2) u2 w1 w2
      else
        checkBox fuel u1 u2 w1 ((w1 + w2) / 2) && checkBox fuel u1 u2 ((w1 + w2) / 2) w2)

/-! ## Auxiliary definitions for the continuity of `noise`

`noise` is, near every point, a finite sum of contributions of lattice corners
(`latticeTerm`); the gradient index of a lattice corner is `hashIdx`, the same
from every cell that touches the corner when the tables repeat with period 256
(`Doubled`). -/

section AuxContinuity
variable {K : Type} [LinearOrderedField K] [FloorRing K]

/-- The gradient index that `noise` uses for the lattice corner `(a, b)`:
`permMod12[(a & 255) + perm[b & 255]]`. -/
def hashIdx (perm permMod12 : List Nat) (a b : Int) : Nat :=
  permMod12.getD ((a % 256).toNat + perm.getD (b % 256).toNat 0) 0

/-- The contribution of the lattice corner `(a, b)` at the point `(x, y)`. -/
def latticeTerm (G2 : K) (perm permMod12 : List Nat) (a b : Int) (x y : K) : K :=
  corner (hashIdx perm permMod12 a b)
    (x - ((a : K) - ((a + b : Int) : K) * G2)) (y - ((b : K) - ((a + b : Int) : K) * G2))

/-- Both tables repeat with period 256 and `perm` holds bytes. -/
def Doubled (perm permMod12 : List Nat) : Prop :=
  (∀ k, k < 256 → perm.getD (k + 256) 0 = perm.getD k 0) ∧
  (∀ k, k < 256 → permMod12.getD (k + 256) 0 = permMod12.getD k 0) ∧
  (∀ k, perm.getD k 0 < 256)

end AuxContinuity

/-! ## Concrete instances used to exercise the definitions -/

/-- A generator in the style of avr-libc: `randomSeed(0)` leaves the state
alone, `random(howbig)` is the Park-Miller step reduced modulo `howbig`. -/
def parkMiller : Rng Nat where
  randomSeed := fun seed g => if seed = 0 then g else seed
  random := fun howbig g =>
    if howbig = 0 then (0, g)
    else
      let g' := 16807 * (if g = 0 then 123459876 else g) % 2147483647
      (g' % howbig, g')

/-- The generator whose draw is always the largest admissible value,
`random(howbig) = howbig - 1`; with it every swap of the shuffle is trivial. -/
def topRng : Rng Unit where
  randomSeed := fun _ g => g
  random := fun howbig g => (howbig - 1, g)

/-! ## Binary64 arithmetic

Where `double` is IEEE 754 binary64, every arithmetic operation returns the
exact result rounded to the nearest representable value, ties to even, and an
infinity or NaN where there is none.  `mapNoise` is evaluated in this arithmetic
by taking its arithmetic to be that of `F64`. -/

/-- The values of an IEEE 754 binary64 `double`: the finite values as rational
numbers (the sign of a zero is not kept), the two infinities and NaN. -/
inductive F64 where
  | fin (q : ℚ)
  | pinf
  | ninf
  | nan
deriving DecidableEq

namespace F64

/-- The fraction `a / b` rounded to the nearest natural number, ties to even. -/
def roundEven (a b : Nat) : Nat :=
  let q := a / b
  let r := a % b
  if 2 * r < b then q else if b < 2 * r then q + 1 else if q % 2 = 0 then q else q + 1

/-- The number of times `n` can be halved before it is below 2, at most `fuel`
times. -/
def halvings : Nat → Nat → Nat
  | 0, _ => 0
  | fuel + 1, n => if n < 2 then 0 else halvings fuel (n / 2) + 1

/-- The integer `floor (log2 n)`, for positive `n`. -/
def bitLog (n : Nat) : Nat := halvings n n

/-- The integer `floor (log2 (a / b))`, for positive `a` and `b`. -/
def floorLog2 (a b : Nat) : Int :=
  let l : Int := (bitLog a : Int) - (bitLog b : Int)
  if b * 2 ^ l.toNat ≤ a * 2 ^ (-l).toNat then l else l - 1

/-- The exponent of the unit in the last place of the binary64 values next to
`a / b`: 53 significant bits, and `-1074` in the subnormal range. -/
def ulpExp (a b : Nat) : Int := max (floorLog2 a b - 52) (-1074)

/-- The magnitude `a / b` rounded to a multiple of its unit in the last place,
ties to even; the result is `2 ^ 1024` or more when the rounded value is above
the largest binary64 value. -/
def roundMag (a b : Nat) : ℚ :=
  let e := ulpExp a b
  mkRat ((roundEven (a * 2 ^ (-e).toNat) (b * 2 ^ e.toNat) * 2 ^ e.toNat : Nat) : Int)
    (2 ^ (-e).toNat)

/-- Rounding of an exact result to binary64: to nearest, ties to even, with
overflow to an infinity. -/
def roundNearest (q : ℚ) : F64 :=
  if q = 0 then fin 0
  else
    let r := roundMag q.num.natAbs q.den
    if (2 : ℚ) ^ 1024 ≤ r then (if 0 < q then pinf else ninf)
    else fin (if 0 < q then r else -r)

/-- Unary minus. -/
def neg : F64 → F64
  | fin a => fin (-a)
  | pinf => ninf
  | ninf => pinf
  | nan => nan

/-- Addition of doubles. -/
def add : F64 → F64 → F64
  | fin a, fin b => roundNearest (a + b)
  | fin _, pinf => pinf
  | fin _, ninf => ninf
  | fin _, nan => nan
  | pinf, fin _ => pinf
  | pinf, pinf => pinf
  | pinf, ninf => nan
  | pinf, nan => nan
  | ninf, fin _ => ninf
  | ninf, pinf => nan
  | ninf, ninf => ninf
  | ninf, nan => nan
  | nan, _ => nan

/-- Subtraction of doubles. -/
def sub (a b : F64) : F64 := add a (neg b)

/-- The product of an infinity, positive or not, and a finite value. -/
def infTimes (positive : Bool) (b : ℚ) : F64 :=
  if b = 0 then nan else if decide (0 < b) = positive then pinf else ninf

/-- Multiplication of doubles. -/
def mul : F64 → F64 → F64
  | fin a, fin b => roundNearest (a * b)
  | fin a, pinf => infTimes true a
  | fin a, ninf => infTimes false a
  | fin _, nan => nan
  | pinf, fin b => infTimes true b
  | pinf, pinf => pinf
  | pinf, ninf => ninf
  | pinf, nan => nan
  | ninf, fin b => infTimes false b
  | ninf, pinf => ninf
  | ninf, ninf => pinf
  | ninf, nan => nan
  | nan, _ => nan

/-- Division of doubles.  A zero divisor is taken to be `+0.0`. -/
def div : F64 → F64 → F64
  | fin a, fin b =>
    if b = 0 then (if a = 0 then nan else if 0 < a then pinf else ninf)
    else roundNearest (a / b)
  | fin _, pinf => fin 0
  | fin _, ninf => fin 0
  | fin _, nan => nan
  | pinf, fin b => if 0 ≤ b then pinf else ninf
  | pinf, pinf => nan
  | pinf, ninf => nan
  | pinf, nan => nan
  | ninf, fin b => if 0 ≤ b then ninf else pinf
  | ninf, pinf => nan
  | ninf, ninf => nan
  | ninf, nan => nan
  | nan, _ => nan

/-- The comparison `a <= b` of doubles, false when either side is NaN. -/
def le : F64 → F64 → Bool
  | fin a, fin b => decide (a ≤ b)
  | fin _, pinf => true
  | pinf, pinf => true
  | ninf, fin _ => true
  | ninf, pinf => true
  | ninf, ninf => true
  | _, _ => false

instance : Neg F64 := ⟨neg⟩
instance : Add F64 := ⟨add⟩
instance : Sub F64 := ⟨sub⟩
instance : Mul F64 := ⟨mul⟩
instance : Div F64 := ⟨div⟩
instance : OfScientific F64 := ⟨fun m s e => roundNearest (Rat.ofScientific m s e)⟩
instance (n : Nat) : OfNat F64 n := ⟨roundNearest n⟩

end F64

/-- `SimplexNoise::scaledNoise` in binary64, `return mapNoise(noise(x, y), min, max)`,
where `noise64 x y` stands for the `double` that `noise(x, y)` returns. -/
def scaledNoise64 (noise64 : F64 → F64 → F64) (x y min max : F64) : F64 :=
  mapNoise (noise64 x y) min max

/-! ## The error classification asked for by the specification -/

/-- A history of evaluation calls: `noise(x, y)` for each entry `(millis, x, y)`
in turn, keeping only the state. -/
def noiseCalls {σ : Type} {K : Type} [LinearOrderedField K] [FloorRing K]
    (rng : Rng σ) (F2 G2 : K) (calls : List (Nat × K × K)) (st : State σ) : State σ :=
  calls.foldl (fun s c => (noise rng F2 G2 c.1 s c.2.1 c.2.2).2) st

/-! ## Reference definitions for the later theorems -/

section FbmReference
variable {K : Type} [LinearOrderedField K] [FloorRing K]

/-- The reference definition of `fbm`, in the specification's words: the sum
over the octaves `k` in `[0, n)` of `p^k * noise(2^k * x, 2^k * y)`, divided (as
doubles are, `fdiv`) by the sum of the amplitudes `p^k`.  `noiseAt` is the
noise function. -/
def fbmReference (noiseAt : K → K → K) (x y : K) (n : Nat) (p : K) : Option K :=
  fdiv ((Finset.range n).sum fun k => p ^ k * noiseAt ((2 : K) ^ k * x) ((2 : K) ^ k * y))
    ((Finset.range n).sum fun k => p ^ k)

end FbmReference

/-- The states reachable from the state of program start by `init(seed)` and
`reseed(seed)` calls. -/
inductive Reachable {σ : Type} (rng : Rng σ) : State σ → Prop where
  | start (g : σ) : Reachable rng (initialState g)
  | init (seed : Nat) (st : State σ) : Reachable rng st → Reachable rng (init rng seed st)
  | reseed (seed : Nat) (st : State σ) : Reachable rng st → Reachable rng (reseed rng seed st)

/-! ## Theorems -/

/-! ### The permutation table builder -/

theorem swapAt_length (a : List Nat) (i j : Nat) : (swapAt a i j).length = a.length := by
  simp [swapAt]

theorem swapAt_perm (a : List Nat) (i j : Nat) (hi : i < a.length) (hj : j < a.length) :
    (swapAt a i j).Perm a := by
  rw [List.perm_iff_count]
  intro v
  have h1 : 0 < List.count a[i] a := List.count_pos_iff.mpr (List.getElem_mem _)
  have h2 : 0 < List.count a[j] a := List.count_pos_iff.mpr (List.getElem_mem _)
  have e1 : a.getD i 0 = a[i] := List.getD_eq_getElem _ _ hi
  have e2 : a.getD j 0 = a[j] := List.getD_eq_getElem _ _ hj
  unfold swapAt
  simp only [e1, e2]
  rw [List.count_set _ _ _ _ (by simpa using hj), List.count_set _ _ _ _ hi]
  simp only [List.getElem_set, beq_iff_eq]
  by_cases hij : i = j
  · subst hij
    by_cases hv : a[i] = v
    · subst hv; simp
    · simp [hv]
  · simp only [hij, if_false]
    by_cases hv : a[i] = v <;> by_cases hw : a[j] = v
    · simp only [hv, hw, if_true]; rw [hv] at h1; omega
    · simp only [hv, hw, if_true, if_false]; rw [hv] at h1; omega
    · simp only [hv, hw, if_true, if_false]; rw [hw] at h2; omega
    · simp [hv, hw]

theorem parkMiller_inRange : parkMiller.InRange := by
  intro howbig g h
  have h0 : howbig ≠ 0 := Nat.pos_iff_ne_zero.mp h
  simp only [parkMiller, h0, if_false]
  exact Nat.mod_lt _ h

theorem topRng_inRange : topRng.InRange := by
  intro howbig g h
  simp only [topRng]
  omega

/-- The shuffle loop permutes the entries it is given, whatever the draws,
as long as each draw is in range. -/
theorem shuffleLoop_perm {σ : Type} (rng : Rng σ) (hr : rng.InRange) :
    ∀ (n : Nat) (acc : List Nat × σ), n < acc.1.length →
      (shuffleLoop rng n acc).1.Perm acc.1
  | 0, acc, _ => by simp [shuffleLoop]
  | n + 1, acc, h => by
    have hj : (rng.random (n + 1 + 1) acc.2).1 < n + 1 + 1 := hr _ _ (by omega)
    have hs := swapAt_perm acc.1 (n + 1) (rng.random (n + 1 + 1) acc.2).1 h (by omega)
    have hl := swapAt_length acc.1 (n + 1) (rng.random (n + 1 + 1) acc.2).1
    have ih := shuffleLoop_perm rng hr n
      (swapAt acc.1 (n + 1) (rng.random (n + 1 + 1) acc.2).1, (rng.random (n + 1 + 1) acc.2).2)
      (by simp only [hl]; omega)
    simp only [shuffleLoop]
    exact ih.trans hs

theorem shuffleLoop_length {σ : Type} (rng : Rng σ) :
    ∀ (n : Nat) (acc : List Nat × σ), (shuffleLoop rng n acc).1.length = acc.1.length
  | 0, acc => by simp [shuffleLoop]
  | n + 1, acc => by
    simp only [shuffleLoop]
    rw [shuffleLoop_length rng n]
    exact swapAt_length _ _ _

set_option maxRecDepth 100000 in
theorem copy_p : ((List.range 256).map fun i => p.getD i 0) = p := by decide

set_option maxRecDepth 100000 in
theorem p_count : ∀ v, v < 256 → p.count v = 1 := by decide


theorem getD_set_eq (l : List Nat) (i j v : Nat) (hi : i < l.length) :
    (l.set i v).getD j 0 = if i = j then v else l.getD j 0 := by
  simp only [List.getD_eq_getElem?_getD, List.getElem?_set, hi, if_true]
  by_cases h : i = j <;> simp [h]

/-- Loop invariant of the fill loop after `n` iterations. -/
theorem fill_invariant (sh : List Nat) (t : List Nat × List Nat) :
    ∀ n, n ≤ t.1.length → n ≤ t.2.length →
      ((List.range n).foldl (fillStep sh) t).1.length = t.1.length ∧
      ((List.range n).foldl (fillStep sh) t).2.length = t.2.length ∧
      ∀ i, i < n →
        ((List.range n).foldl (fillStep sh) t).1.getD i 0 = sh.getD (i &&& 255) 0 ∧
        ((List.range n).foldl (fillStep sh) t).2.getD i 0
          = sh.getD (i &&& 255) 0 % 12 % 256
  | 0, _, _ => by simp
  | n + 1, h1, h2 => by
    obtain ⟨l1, l2, ih⟩ := fill_invariant sh t n (by omega) (by omega)
    rw [List.range_succ, List.foldl_append]
    simp only [List.foldl_cons, List.foldl_nil, fillStep, List.length_set]
    refine ⟨l1, l2, ?_⟩
    intro i hi
    rw [getD_set_eq _ _ _ _ (by omega), getD_set_eq _ _ _ _ (by omega),
      getD_set_eq _ _ _ _ (by omega)]
    by_cases hn : n = i
    · subst hn; simp
    · simp only [hn, if_false]
      exact ih i (by omega)

theorem generatePerm_perm_getD {σ : Type} (rng : Rng σ) (seed : Nat) (st : State σ)
    (hw : st.WF) (i : Nat) (hi : i < 512) :
    (generatePerm rng seed st).perm.getD i 0
      = (shuffleLoop rng 255 (p, rng.randomSeed seed st.gen)).1.getD (i % 256) 0 := by
  have h := fill_invariant (shuffleLoop rng 255 (p, rng.randomSeed seed st.gen)).1
    (st.perm, st.permMod12) 512 (by simp [hw.1]) (by simp [hw.2.1])
  have e : i &&& 255 = i % 256 := Nat.and_pow_two_sub_one_eq_mod i 8
  simp only [generatePerm, copy_p]
  rw [(h.2.2 i hi).1, e]

theorem generatePerm_permMod12_getD {σ : Type} (rng : Rng σ) (seed : Nat) (st : State σ)
    (hw : st.WF) (i : Nat) (hi : i < 512) :
    (generatePerm rng seed st).permMod12.getD i 0
      = (generatePerm rng seed st).perm.getD i 0 % 12 := by
  have h := fill_invariant (shuffleLoop rng 255 (p, rng.randomSeed seed st.gen)).1
    (st.perm, st.permMod12) 512 (by simp [hw.1]) (by simp [hw.2.1])
  simp only [generatePerm, copy_p]
  rw [(h.2.2 i hi).1, (h.2.2 i hi).2]
  exact Nat.mod_eq_of_lt (lt_trans (Nat.mod_lt _ (by norm_num)) (by norm_num))

theorem generatePerm_length {σ : Type} (rng : Rng σ) (seed : Nat) (st : State σ)
    (hw : st.WF) :
    (generatePerm rng seed st).perm.length = 512 ∧
      (generatePerm rng seed st).permMod12.length = 512 := by
  have h := fill_invariant (shuffleLoop rng 255 (p, rng.randomSeed seed st.gen)).1
    (st.perm, st.permMod12) 512 (by simp [hw.1]) (by simp [hw.2.1])
  simp only [generatePerm, copy_p]
  exact ⟨h.1.trans hw.1, h.2.1.trans hw.2.1⟩

set_option maxRecDepth 100000 in
theorem p_length : p.length = 256 := by decide

theorem initialState_wf {σ : Type} (g : σ) : (initialState g).WF := by
  refine ⟨List.length_replicate _ _, List.length_replicate _ _, ?_, ?_⟩ <;>
    · intro v hv
      simp only [initialState, List.mem_replicate] at hv
      omega

/-- The first half of `perm` is the shuffled table itself. -/
theorem generatePerm_take {σ : Type} (rng : Rng σ) (seed : Nat) (st : State σ)
    (hw : st.WF) :
    (generatePerm rng seed st).perm.take 256
      = (shuffleLoop rng 255 (p, rng.randomSeed seed st.gen)).1 := by
  have hl := (generatePerm_length rng seed st hw).1
  have hs : (shuffleLoop rng 255 (p, rng.randomSeed seed st.gen)).1.length = 256 := by
    rw [shuffleLoop_length]; exact p_length
  apply List.ext_getElem
  · rw [List.length_take, hl, hs]; rfl
  · intro i h1 h2
    have hi : i < 256 := by rw [hs] at h2; exact h2
    have h := generatePerm_perm_getD rng seed st hw i (by omega)
    rw [List.getD_eq_getElem _ _ (by omega), Nat.mod_eq_of_lt hi,
      List.getD_eq_getElem _ _ h2] at h
    rw [List.getElem_take]
    exact h

/-- **C1.** For every seed and every prior state of the tables, if every draw
`random(i + 1)` of the shuffle lies in `[0, i]`, then after `generatePerm(seed)`
the entries `perm[0..255]` contain each value `0..255` exactly once. -/
theorem generatePerm_permutation {σ : Type} (rng : Rng σ) (hr : rng.InRange)
    (seed : Nat) (st : State σ) (hw : st.WF) :
    ((generatePerm rng seed st).perm.take 256).length = 256 ∧
      ∀ v, v < 256 → ((generatePerm rng seed st).perm.take 256).count v = 1 := by
  rw [generatePerm_take rng seed st hw]
  refine ⟨by rw [shuffleLoop_length]; exact p_length, ?_⟩
  intro v hv
  have hp := shuffleLoop_perm rng hr 255 (p, rng.randomSeed seed st.gen)
    (by simp only [p_length]; omega)
  rw [hp.count_eq]
  exact p_count v hv

theorem generatePerm_permutation_witness :
    parkMiller.InRange ∧ (initialState (0 : Nat)).WF ∧
      ((generatePerm parkMiller 42 (initialState 0)).perm.take 256).length = 256 ∧
      ∀ v, v < 256 →
        ((generatePerm parkMiller 42 (initialState 0)).perm.take 256).count v = 1 :=
  ⟨parkMiller_inRange, initialState_wf 0,
    generatePerm_permutation parkMiller parkMiller_inRange 42 (initialState 0)
      (initialState_wf 0)⟩

/-- **C2.** For every seed, after `generatePerm(seed)` the two halves of `perm`
are identical: `perm[i] == perm[i + 256]` for every `i` in `[0, 255]`. -/
theorem generatePerm_halves {σ : Type} (rng : Rng σ) (seed : Nat) (st : State σ)
    (hw : st.WF) :
    (generatePerm rng seed st).perm.length = 512 ∧
      ∀ i, i < 256 →
        (generatePerm rng seed st).perm.getD i 0
          = (generatePerm rng seed st).perm.getD (i + 256) 0 := by
  refine ⟨(generatePerm_length rng seed st hw).1, ?_⟩
  intro i hi
  rw [generatePerm_perm_getD rng seed st hw i (by omega),
    generatePerm_perm_getD rng seed st hw (i + 256) (by omega)]
  simp

theorem generatePerm_halves_witness :
    (initialState (0 : Nat)).WF ∧
      (generatePerm parkMiller 42 (initialState 0)).perm.length = 512 ∧
      ∀ i, i < 256 →
        (generatePerm parkMiller 42 (initialState 0)).perm.getD i 0
          = (generatePerm parkMiller 42 (initialState 0)).perm.getD (i + 256) 0 :=
  ⟨initialState_wf 0, generatePerm_halves parkMiller 42 (initialState 0) (initialState_wf 0)⟩

/-- **C3.** For every seed, after `generatePerm(seed)`,
`permMod12[i] == perm[i] % 12` for every `i` in `[0, 511]`, so every entry of
`permMod12` is below 12. -/
theorem generatePerm_mod12 {σ : Type} (rng : Rng σ) (seed : Nat) (st : State σ)
    (hw : st.WF) :
    (generatePerm rng seed st).perm.length = 512 ∧
      (generatePerm rng seed st).permMod12.length = 512 ∧
      ∀ i, i < 512 →
        (generatePerm rng seed st).permMod12.getD i 0
          = (generatePerm rng seed st).perm.getD i 0 % 12 ∧
        (generatePerm rng seed st).permMod12.getD i 0 < 12 := by
  refine ⟨(generatePerm_length rng seed st hw).1, (generatePerm_length rng seed st hw).2, ?_⟩
  intro i hi
  have h := generatePerm_permMod12_getD rng seed st hw i hi
  exact ⟨h, by rw [h]; exact Nat.mod_lt _ (by norm_num)⟩

theorem generatePerm_mod12_witness :
    (initialState (0 : Nat)).WF ∧
      (generatePerm parkMiller 42 (initialState 0)).perm.length = 512 ∧
      (generatePerm parkMiller 42 (initialState 0)).permMod12.length = 512 ∧
      ∀ i, i < 512 →
        (generatePerm parkMiller 42 (initialState 0)).permMod12.getD i 0
          = (generatePerm parkMiller 42 (initialState 0)).perm.getD i 0 % 12 ∧
        (generatePerm parkMiller 42 (initialState 0)).permMod12.getD i 0 < 12 :=
  ⟨initialState_wf 0, generatePerm_mod12 parkMiller 42 (initialState 0) (initialState_wf 0)⟩

theorem swapAt_bound (a : List Nat) (i j : Nat) (h : ∀ v ∈ a, v < 256) :
    ∀ v ∈ swapAt a i j, v < 256 := by
  have hd : ∀ k, a.getD k 0 < 256 := by
    intro k
    rw [List.getD_eq_getElem?_getD]
    cases hk : a[k]? with
    | none => simp
    | some w => exact h w (List.getElem?_mem hk)
  intro v hv
  simp only [swapAt] at hv
  rcases List.mem_or_eq_of_mem_set hv with h1 | h1
  · rcases List.mem_or_eq_of_mem_set h1 with h2 | h2
    · exact h v h2
    · rw [h2]; exact hd j
  · rw [h1]; exact hd i

theorem shuffleLoop_bound {σ : Type} (rng : Rng σ) :
    ∀ (n : Nat) (acc : List Nat × σ), (∀ v ∈ acc.1, v < 256) →
      ∀ v ∈ (shuffleLoop rng n acc).1, v < 256
  | 0, _, h => h
  | n + 1, acc, h => by
    simp only [shuffleLoop]
    exact shuffleLoop_bound rng n _ (swapAt_bound acc.1 _ _ h)

set_option maxRecDepth 100000 in
theorem p_bound : ∀ v ∈ p, v < 256 := by decide

theorem getD_lt_of_bound (l : List Nat) (h : ∀ v ∈ l, v < 256) (k : Nat) :
    l.getD k 0 < 256 := by
  rw [List.getD_eq_getElem?_getD]
  cases hk : l[k]? with
  | none => simp
  | some w => exact h w (List.getElem?_mem hk)

/-- The tables built by `generatePerm` are again `uint8_t[512]` arrays. -/
theorem generatePerm_wf {σ : Type} (rng : Rng σ) (seed : Nat) (st : State σ)
    (hw : st.WF) : (generatePerm rng seed st).WF := by
  have hl := generatePerm_length rng seed st hw
  have hb := shuffleLoop_bound rng 255 (p, rng.randomSeed seed st.gen) p_bound
  refine ⟨hl.1, hl.2, ?_, ?_⟩
  · intro v hv
    obtain ⟨i, hi, rfl⟩ := List.getElem_of_mem hv
    rw [hl.1] at hi
    have h := generatePerm_perm_getD rng seed st hw i hi
    rw [List.getD_eq_getElem _ _ (by omega)] at h
    rw [h]
    exact getD_lt_of_bound _ hb _
  · intro v hv
    obtain ⟨i, hi, rfl⟩ := List.getElem_of_mem hv
    rw [hl.2] at hi
    have h := generatePerm_permMod12_getD rng seed st hw i hi
    rw [List.getD_eq_getElem _ _ (by omega)] at h
    rw [h]
    exact lt_trans (Nat.mod_lt _ (by norm_num)) (by norm_num)

theorem init_perm {σ : Type} (rng : Rng σ) (seed : Nat) (st : State σ) :
    (init rng seed st).perm = (generatePerm rng seed st).perm := by
  simp only [init]

theorem init_permMod12 {σ : Type} (rng : Rng σ) (seed : Nat) (st : State σ) :
    (init rng seed st).permMod12 = (generatePerm rng seed st).permMod12 := by
  simp only [init]

theorem init_initialized {σ : Type} (rng : Rng σ) (seed : Nat) (st : State σ) :
    (init rng seed st).initialized = true := by
  simp only [init]

theorem reseed_initialized {σ : Type} (rng : Rng σ) (seed : Nat) (st : State σ) :
    (reseed rng seed st).initialized = st.initialized := by
  simp only [reseed, generatePerm]

/-! ### Seeding and the initialisation flag -/

theorem noise_of_initialized {σ : Type} {K : Type} [LinearOrderedField K] [FloorRing K]
    (rng : Rng σ) (F2 G2 : K) (millis : Nat) (st : State σ) (x y : K)
    (h : st.initialized = true) :
    noise rng F2 G2 millis st x y = (noiseValue F2 G2 st.perm st.permMod12 x y, st) := by
  simp [noise, h]

theorem noise_of_uninitialized {σ : Type} {K : Type} [LinearOrderedField K] [FloorRing K]
    (rng : Rng σ) (F2 G2 : K) (millis : Nat) (st : State σ) (x y : K)
    (h : st.initialized = false) :
    noise rng F2 G2 millis st x y
      = (noiseValue F2 G2 (init rng millis st).perm (init rng millis st).permMod12 x y,
          init rng millis st) := by
  simp [noise, h, initDefault]

theorem noiseCalls_of_initialized {σ : Type} {K : Type} [LinearOrderedField K]
    [FloorRing K] (rng : Rng σ) (F2 G2 : K) :
    ∀ (calls : List (Nat × K × K)) (st : State σ), st.initialized = true →
      noiseCalls rng F2 G2 calls st = st
  | [], _, _ => rfl
  | c :: cs, st, h => by
    have ih := noiseCalls_of_initialized rng F2 G2 cs st h
    simp only [noiseCalls, List.foldl_cons] at ih ⊢
    rw [noise_of_initialized rng F2 G2 c.1 st c.2.1 c.2.2 h]
    exact ih

/-- **C4 (the code at the failing input).** On the state of program start,
`reseed(42)` and `init(42)` build the same tables but leave different states:
`reseed` keeps `initialized == false`, `init` sets it. -/
theorem reseed_differs_from_init_at_start :
    (reseed parkMiller 42 (initialState 0)).perm = (init parkMiller 42 (initialState 0)).perm ∧
    (reseed parkMiller 42 (initialState 0)).permMod12
      = (init parkMiller 42 (initialState 0)).permMod12 ∧
    (reseed parkMiller 42 (initialState 0)).initialized = false ∧
    (init parkMiller 42 (initialState 0)).initialized = true ∧
    reseed parkMiller 42 (initialState 0) ≠ init parkMiller 42 (initialState 0) := by
  have h1 := reseed_initialized parkMiller 42 (initialState 0)
  have h2 := init_initialized parkMiller 42 (initialState 0)
  refine ⟨(init_perm _ _ _).symm, (init_permMod12 _ _ _).symm, h1, h2, ?_⟩
  intro h
  rw [h, h2] at h1
  exact Bool.noConfusion h1

set_option maxRecDepth 1000000 in
set_option maxHeartbeats 4000000 in
theorem shuffle_seed_7_top :
    (shuffleLoop parkMiller 255 (p, parkMiller.randomSeed 7
      (generatePerm parkMiller 42 (initialState 0)).gen)).1.getD (255 % 256) 0 = 206 := by
  have h : parkMiller.randomSeed 7 (generatePerm parkMiller 42 (initialState 0)).gen = 7 := rfl
  rw [h]
  decide

set_option maxRecDepth 1000000 in
set_option maxHeartbeats 4000000 in
theorem shuffle_seed_42_top :
    (shuffleLoop parkMiller 255 (p, parkMiller.randomSeed 42
      (initialState 0).gen)).1.getD (255 % 256) 0 = 80 := by
  decide

/-- **C5 (the code at the failing input).** After `reseed(S)` on the state of
program start the engine is still unseeded: the next `noise(x, y)` runs
`init(millis())`, so it is evaluated against the tables built from the clock
value, and the tables built from `S` are discarded.  With the generator
`parkMiller`, `S = 42` and a clock value of 7 the two tables differ at index
255. -/
theorem noise_after_reseed_at_start :
    (∀ {σ : Type} (rng : Rng σ) (g : σ) (S millis : Nat) (x y : ℝ),
      noise rng F2 G2 millis (reseed rng S (initialState g)) x y
        = (noiseValue F2 G2
            (generatePerm rng millis (reseed rng S (initialState g))).perm
            (generatePerm rng millis (reseed rng S (initialState g))).permMod12 x y,
           init rng millis (reseed rng S (initialState g)))) ∧
    (generatePerm parkMiller 7 (reseed parkMiller 42 (initialState 0))).perm.getD 255 0 = 206 ∧
    (reseed parkMiller 42 (initialState 0)).perm.getD 255 0 = 80 := by
  refine ⟨?_, ?_, ?_⟩
  · intro σ rng g S millis x y
    rw [noise_of_uninitialized rng F2 G2 millis _ x y (reseed_initialized rng S _),
      init_perm, init_permMod12]
  · rw [reseed, generatePerm_perm_getD _ _ _ (generatePerm_wf _ _ _ (initialState_wf 0)) 255
      (by norm_num)]
    exact shuffle_seed_7_top
  · rw [reseed, generatePerm_perm_getD _ _ _ (initialState_wf 0) 255 (by norm_num)]
    exact shuffle_seed_42_top

/-- **C6.** Determinism after explicit seeding: after `init(S)`, whatever
evaluation calls have been made in between and whatever the clock shows,
`noise(x, y)` returns the same value, namely the value of the pure function
`noiseValue` of `(x, y, perm, permMod12)` on the tables built by `init(S)`; and
whenever `initialized` is true a call leaves `perm`, `permMod12` and
`initialized` (the whole state) unchanged. -/
theorem noise_deterministic {σ : Type} {K : Type} [LinearOrderedField K] [FloorRing K]
    (rng : Rng σ) (F2 G2 : K) (S : Nat) (st0 : State σ) (x y : K) :
    (∀ (calls : List (Nat × K × K)) (millis : Nat),
      (noise rng F2 G2 millis (noiseCalls rng F2 G2 calls (init rng S st0)) x y).1
        = noiseValue F2 G2 (init rng S st0).perm (init rng S st0).permMod12 x y) ∧
    (∀ (st : State σ) (millis : Nat), st.initialized = true →
      noise rng F2 G2 millis st x y = (noiseValue F2 G2 st.perm st.permMod12 x y, st)) := by
  refine ⟨?_, ?_⟩
  · intro calls millis
    rw [noiseCalls_of_initialized rng F2 G2 calls _ rfl,
      noise_of_initialized rng F2 G2 millis _ x y rfl]
  · intro st millis h
    exact noise_of_initialized rng F2 G2 millis st x y h

theorem noise_deterministic_witness :
    (init parkMiller 42 (initialState 0)).initialized = true ∧
    noise parkMiller F2 G2 7 (init parkMiller 42 (initialState 0)) 1 2
      = (noiseValue F2 G2 (init parkMiller 42 (initialState 0)).perm
          (init parkMiller 42 (initialState 0)).permMod12 1 2,
         init parkMiller 42 (initialState 0)) :=
  ⟨rfl, (noise_deterministic parkMiller F2 G2 42 (initialState 0) 1 2).2
    (init parkMiller 42 (initialState 0)) 7 rfl⟩

/-! ### Fractal summation -/

/-- **C9.** Single-octave `fbm` degenerates to base noise: for every `x`, `y`
and persistence, on the same state, `fbm(x, y, 1, persistence)` returns exactly
the value of `noise(x, y)` (and leaves the same state). -/
theorem fbm_single_octave {σ : Type} {K : Type} [LinearOrderedField K] [FloorRing K]
    (rng : Rng σ) (F2 G2 : K) (millis : Nat) (st : State σ) (x y persistence : K) :
    fbm rng F2 G2 millis st x y 1 persistence
      = (some (noise rng F2 G2 millis st x y).1, (noise rng F2 G2 millis st x y).2) := by
  have h1 : (0.0 + 1.0 : K) ≠ 0 := by norm_num
  have h2 : ∀ v : K, (0.0 + v * 1.0) / (0.0 + 1.0) = v := fun v => by norm_num
  have hx : x * 1.0 = x := by norm_num
  have hy : y * 1.0 = y := by norm_num
  simp only [fbm, Int.toNat_one, fbmLoop, fbmStep, fdiv, h1, if_false, h2, hx, hy]

theorem sqMin_le (u1 u2 : Int) (a : ℝ) (h1 : (u1 : ℝ) ≤ a) (h2 : a ≤ (u2 : ℝ)) :
    ((sqMin u1 u2 : Int) : ℝ) ≤ a ^ 2 := by
  unfold sqMin
  split_ifs with h
  · simp; positivity
  · push_cast
    rw [not_and_or] at h
    rcases h with h | h
    · have : (0 : ℝ) < u1 := by exact_mod_cast (not_le.mp h)
      calc min ((u1 : ℝ) * u1) (u2 * u2) ≤ (u1 : ℝ) * u1 := min_le_left _ _
        _ ≤ a ^ 2 := by nlinarith
    · have : (u2 : ℝ) < 0 := by exact_mod_cast (not_le.mp h)
      calc min ((u1 : ℝ) * u1) (u2 * u2) ≤ (u2 : ℝ) * u2 := min_le_right _ _
        _ ≤ a ^ 2 := by nlinarith

theorem abs_le_absMax (u1 u2 : Int) (a : ℝ) (h1 : (u1 : ℝ) ≤ a) (h2 : a ≤ (u2 : ℝ)) :
    |a| ≤ ((absMax u1 u2 : Int) : ℝ) := by
  unfold absMax
  push_cast
  rw [abs_le]
  constructor
  · have := le_max_left (-(u1 : ℝ)) u2
    linarith
  · exact le_trans h2 (le_max_right _ _)

theorem termUp_sound (u1 u2 w1 w2 : Int) (a b : ℝ)
    (ha1 : (u1 : ℝ) ≤ a) (ha2 : a ≤ (u2 : ℝ)) (hb1 : (w1 : ℝ) ≤ b) (hb2 : b ≤ (w2 : ℝ)) :
    (max (3 * (gridN : ℝ) * gridN - (a ^ 2 + 3 * b ^ 2)) 0) ^ 4
        * max ((kappaNum : ℝ) * |a|) ((kappaDen : ℝ) * |b|)
      ≤ ((termUp u1 u2 w1 w2 : Int) : ℝ) := by
  unfold termUp
  push_cast
  have hs1 := sqMin_le u1 u2 a ha1 ha2
  have hs2 := sqMin_le w1 w2 b hb1 hb2
  have hm1 := abs_le_absMax u1 u2 a ha1 ha2
  have hm2 := abs_le_absMax w1 w2 b hb1 hb2
  have hkn : (0 : ℝ) ≤ (kappaNum : ℝ) := by norm_num [kappaNum]
  have hkd : (0 : ℝ) ≤ (kappaDen : ℝ) := by norm_num [kappaDen]
  apply mul_le_mul
  · apply pow_le_pow_left₀ (le_max_right _ _)
    apply max_le_max _ le_rfl
    linarith
  · apply max_le_max
    · exact mul_le_mul_of_nonneg_left hm1 hkn
    · exact mul_le_mul_of_nonneg_left hm2 hkd
  · exact le_trans (mul_nonneg hkn (abs_nonneg _)) (le_max_left _ _)
  · positivity

/-- Scaling: the corner bound in grid units. -/
theorem cornerBound_scaled (u w : ℝ) :
    cornerBound ((kappaNum : ℝ) / kappaDen) u w
      = (max (3 * (gridN : ℝ) * gridN - ((gridN * u) ^ 2 + 3 * (gridN * w) ^ 2)) 0) ^ 4
          * max ((kappaNum : ℝ) * |gridN * u|) ((kappaDen : ℝ) * |gridN * w|)
        / (1296 * kappaDen * (gridN : ℝ) ^ 9) := by
  have hN : (0 : ℝ) < (gridN : ℝ) := by norm_num [gridN]
  have hkd : (0 : ℝ) < (kappaDen : ℝ) := by norm_num [kappaDen]
  unfold cornerBound
  have e1 : max (3 * (gridN : ℝ) * gridN - ((gridN * u) ^ 2 + 3 * (gridN * w) ^ 2)) 0
      = (6 * (gridN : ℝ) ^ 2) * max (1 / 2 - (u ^ 2 + 3 * w ^ 2) / 6) 0 := by
    rw [mul_max_of_nonneg _ _ (by positivity)]
    congr 1 <;> ring
  have e2 : max ((kappaNum : ℝ) * |gridN * u|) ((kappaDen : ℝ) * |gridN * w|)
      = (kappaDen * gridN : ℝ) * max ((kappaNum : ℝ) / kappaDen * |u|) |w| := by
    rw [mul_max_of_nonneg _ _ (by positivity), abs_mul, abs_mul, abs_of_pos hN]
    congr 1
    · field_simp; ring
    · ring
  rw [e1, e2]
  field_simp
  ring


theorem core_poly (u w : ℝ) (hu1 : 2 / 5 ≤ u) (hu2 : u ≤ 8 / 5) (hw1 : 0 ≤ w)
    (hw2 : w ≤ 3 / 20) :
    (1 / 2 - (u ^ 2 + 3 * w ^ 2) / 6) ^ 4 * u
      + (1 / 2 - ((u - 2) ^ 2 + 3 * w ^ 2) / 6) ^ 4 * (2 - u)
      ≤ (32 - 75 * w ^ 2) / 1296 := by
  have hz0 : 0 ≤ (u - 1) ^ 2 := sq_nonneg _
  have hz1 : (u - 1) ^ 2 ≤ 9 / 25 := by nlinarith
  have ho0 : 0 ≤ 3 * w ^ 2 := by positivity
  have ho1 : 3 * w ^ 2 ≤ 27 / 400 := by nlinarith
  have key : (1 / 2 - (u ^ 2 + 3 * w ^ 2) / 6) ^ 4 * u
      + (1 / 2 - ((u - 2) ^ 2 + 3 * w ^ 2) / 6) ^ 4 * (2 - u)
      = (32 - 75 * w ^ 2
          - 3 * w ^ 2 * (39 - 48 * (3 * w ^ 2) + 16 * (3 * w ^ 2) ^ 2 - 2 * (3 * w ^ 2) ^ 3
              - 24 * (2 - 3 * w ^ 2) ^ 2 * (u - 1) ^ 2)
          - ((u - 1) ^ 2) ^ 2 * (48 + 80 * (3 * w ^ 2) - 60 * (3 * w ^ 2) ^ 2
              - 56 * (3 * w ^ 2) * (u - 1) ^ 2 - 18 * ((u - 1) ^ 2) ^ 2)) / 1296 := by
    ring
  rw [key]
  have hR1 : 0 ≤ 39 - 48 * (3 * w ^ 2) + 16 * (3 * w ^ 2) ^ 2 - 2 * (3 * w ^ 2) ^ 3
              - 24 * (2 - 3 * w ^ 2) ^ 2 * (u - 1) ^ 2 := by
    generalize (u - 1) ^ 2 = z at hz0 hz1
    generalize 3 * w ^ 2 = o at ho0 ho1
    have h1 : (2 - o) ^ 2 ≤ 4 := by nlinarith
    have h2 : (2 - o) ^ 2 * z ≤ 4 * (9 / 25) := by
      apply mul_le_mul h1 hz1 hz0 (by norm_num)
    have h3 : o ^ 3 ≤ (27 / 400) ^ 3 := pow_le_pow_left₀ ho0 ho1 3
    nlinarith [sq_nonneg o]
  have hR2 : 0 ≤ 48 + 80 * (3 * w ^ 2) - 60 * (3 * w ^ 2) ^ 2
              - 56 * (3 * w ^ 2) * (u - 1) ^ 2 - 18 * ((u - 1) ^ 2) ^ 2 := by
    generalize (u - 1) ^ 2 = z at hz0 hz1
    generalize 3 * w ^ 2 = o at ho0 ho1
    have h1 : o * z ≤ 27 / 400 * (9 / 25) := mul_le_mul ho1 hz1 hz0 (by norm_num)
    have h2 : o ^ 2 ≤ (27 / 400) ^ 2 := pow_le_pow_left₀ ho0 ho1 2
    have h3 : z ^ 2 ≤ (9 / 25) ^ 2 := pow_le_pow_left₀ hz0 hz1 2
    nlinarith
  have hA : 0 ≤ 3 * w ^ 2 * (39 - 48 * (3 * w ^ 2) + 16 * (3 * w ^ 2) ^ 2 - 2 * (3 * w ^ 2) ^ 3
              - 24 * (2 - 3 * w ^ 2) ^ 2 * (u - 1) ^ 2) := mul_nonneg ho0 hR1
  have hB : 0 ≤ ((u - 1) ^ 2) ^ 2 * (48 + 80 * (3 * w ^ 2) - 60 * (3 * w ^ 2) ^ 2
              - 56 * (3 * w ^ 2) * (u - 1) ^ 2 - 18 * ((u - 1) ^ 2) ^ 2) :=
    mul_nonneg (sq_nonneg _) hR2
  linarith

theorem core_bound (u w : ℝ) (hu1 : 2 / 5 ≤ u) (hu2 : u ≤ 8 / 5) (hw1 : 0 ≤ w)
    (hw2 : w ≤ 3 / 20) :
    simplexBound ((kappaNum : ℝ) / kappaDen) u w ≤ 1 / 70 := by
  have hk : ((kappaNum : ℝ) / kappaDen) = 57736 / 100000 := by norm_num [kappaNum, kappaDen]
  rw [hk]
  unfold simplexBound cornerBound
  -- corner 0
  have t0 : 0 ≤ 1 / 2 - (u ^ 2 + 3 * w ^ 2) / 6 := by nlinarith
  have t2 : 0 ≤ 1 / 2 - ((u - 2) ^ 2 + 3 * w ^ 2) / 6 := by nlinarith
  have m0 : max (57736 / 100000 * |u|) |w| = 57736 / 100000 * u := by
    rw [abs_of_nonneg (by linarith : 0 ≤ u), abs_of_nonneg hw1]
    exact max_eq_left (by linarith)
  have m2 : max (57736 / 100000 * |u - 2|) |w| = 57736 / 100000 * (2 - u) := by
    rw [abs_of_nonpos (by linarith : u - 2 ≤ 0), abs_of_nonneg hw1]
    rw [neg_sub]
    exact max_eq_left (by linarith)
  have t1 : max (1 / 2 - ((u - 1) ^ 2 + 3 * (w - 1) ^ 2) / 6) 0 ≤ w := by
    apply max_le _ hw1
    nlinarith [sq_nonneg (u - 1), sq_nonneg w]
  have m1 : max (57736 / 100000 * |u - 1|) |w - 1| ≤ 1 := by
    apply max_le
    · have : |u - 1| ≤ 3 / 5 := abs_le.mpr ⟨by linarith, by linarith⟩
      linarith
    · exact abs_le.mpr ⟨by linarith, by linarith⟩
  have c1 : (max (1 / 2 - ((u - 1) ^ 2 + 3 * (w - 1) ^ 2) / 6) 0) ^ 4
      * max (57736 / 100000 * |u - 1|) |w - 1| ≤ w ^ 4 * 1 := by
    apply mul_le_mul (pow_le_pow_left₀ (le_max_right _ _) t1 4) m1
    · exact le_trans (mul_nonneg (by norm_num) (abs_nonneg _)) (le_max_left _ _)
    · positivity
  rw [max_eq_left t0, max_eq_left t2, m0, m2]
  have hp := core_poly u w hu1 hu2 hw1 hw2
  have hw4 : w ^ 4 ≤ (3 / 20) ^ 2 * w ^ 2 := by
    have : w ^ 2 ≤ (3 / 20) ^ 2 := pow_le_pow_left₀ hw1 hw2 2
    nlinarith [sq_nonneg w]
  nlinarith [sq_nonneg w]


theorem boxOk_sound (u1 u2 w1 w2 : Int) (h : boxOk u1 u2 w1 w2 = true) (u w : ℝ)
    (hu1 : (u1 : ℝ) ≤ gridN * u) (hu2 : (gridN : ℝ) * u ≤ u2)
    (hw1 : (w1 : ℝ) ≤ gridN * w) (hw2 : (gridN : ℝ) * w ≤ w2) :
    simplexBound ((kappaNum : ℝ) / kappaDen) u w ≤ 1 / 70 := by
  have hD : (0 : ℝ) < 1296 * kappaDen * (gridN : ℝ) ^ 9 := by norm_num [kappaDen, gridN]
  have h0 := termUp_sound u1 u2 w1 w2 (gridN * u) (gridN * w) hu1 hu2 hw1 hw2
  have h1 := termUp_sound (u1 - gridN) (u2 - gridN) (w1 - gridN) (w2 - gridN)
    (gridN * (u - 1)) (gridN * (w - 1))
    (by push_cast; linarith) (by push_cast; linarith)
    (by push_cast; linarith) (by push_cast; linarith)
  have h2 := termUp_sound (u1 - 2 * gridN) (u2 - 2 * gridN) w1 w2
    (gridN * (u - 2)) (gridN * w)
    (by push_cast; linarith) (by push_cast; linarith) hw1 hw2
  have hb : (70 : ℝ) * ((termUp u1 u2 w1 w2 : Int)
      + (termUp (u1 - gridN) (u2 - gridN) (w1 - gridN) (w2 - gridN) : Int)
      + (termUp (u1 - 2 * gridN) (u2 - 2 * gridN) w1 w2 : Int))
      ≤ 1296 * kappaDen * (gridN : ℝ) ^ 9 := by
    have := of_decide_eq_true h
    exact_mod_cast this
  unfold simplexBound
  rw [cornerBound_scaled, cornerBound_scaled, cornerBound_scaled, ← add_div, ← add_div,
    div_le_iff₀ hD]
  linarith

theorem inCore_sound (u1 u2 w1 w2 : Int) (h : inCore u1 u2 w1 w2 = true) (u w : ℝ)
    (hu1 : (u1 : ℝ) ≤ gridN * u) (hu2 : (gridN : ℝ) * u ≤ u2)
    (hw1 : (w1 : ℝ) ≤ gridN * w) (hw2 : (gridN : ℝ) * w ≤ w2) :
    simplexBound ((kappaNum : ℝ) / kappaDen) u w ≤ 1 / 70 := by
  have hN : (gridN : ℝ) = 1048576 := by norm_num [gridN]
  obtain ⟨a, b, c, d⟩ := of_decide_eq_true h
  have a' : (2 : ℝ) * gridN ≤ 5 * u1 := by exact_mod_cast a
  have b' : (5 : ℝ) * u2 ≤ 8 * gridN := by exact_mod_cast b
  have c' : (0 : ℝ) ≤ w1 := by exact_mod_cast c
  have d' : (20 : ℝ) * w2 ≤ 3 * gridN := by exact_mod_cast d
  rw [hN] at hu1 hu2 hw1 hw2 a' b' d'
  apply core_bound <;> linarith

theorem checkBox_sound : ∀ (fuel : Nat) (u1 u2 w1 w2 : Int),
    checkBox fuel u1 u2 w1 w2 = true → ∀ (u w : ℝ),
      (u1 : ℝ) ≤ gridN * u → (gridN : ℝ) * u ≤ u2 →
      (w1 : ℝ) ≤ gridN * w → (gridN : ℝ) * w ≤ w2 →
      simplexBound ((kappaNum : ℝ) / kappaDen) u w ≤ 1 / 70
  | 0, u1, u2, w1, w2, h, u, w, hu1, hu2, hw1, hw2 => by
    simp only [checkBox, Bool.or_eq_true] at h
    rcases h with h | h
    · exact inCore_sound u1 u2 w1 w2 h u w hu1 hu2 hw1 hw2
    · exact boxOk_sound u1 u2 w1 w2 h u w hu1 hu2 hw1 hw2
  | fuel + 1, u1, u2, w1, w2, h, u, w, hu1, hu2, hw1, hw2 => by
    simp only [checkBox, Bool.or_eq_true] at h
    rcases h with (h | h) | h
    · exact inCore_sound u1 u2 w1 w2 h u w hu1 hu2 hw1 hw2
    · exact boxOk_sound u1 u2 w1 w2 h u w hu1 hu2 hw1 hw2
    · split_ifs at h
      · rw [Bool.and_eq_true] at h
        rcases le_total ((gridN : ℝ) * u) (((u1 + u2) / 2 : Int) : ℝ) with hm | hm
        · exact checkBox_sound fuel _ _ _ _ h.1 u w hu1 hm hw1 hw2
        · exact checkBox_sound fuel _ _ _ _ h.2 u w hm hu2 hw1 hw2
      · rw [Bool.and_eq_true] at h
        rcases le_total ((gridN : ℝ) * w) (((w1 + w2) / 2 : Int) : ℝ) with hm | hm
        · exact checkBox_sound fuel _ _ _ _ h.1 u w hu1 hu2 hw1 hm
        · exact checkBox_sound fuel _ _ _ _ h.2 u w hu1 hu2 hm hw2

set_option maxRecDepth 100000 in
theorem checkBox_root : checkBox 20 (-2 * gridN) gridN 0 (2 * gridN) = true := by
  decide!


theorem cornerBound_neg_left (κ u w : ℝ) : cornerBound κ (-u) w = cornerBound κ u w := by
  simp only [cornerBound, neg_sq, abs_neg]

theorem cornerBound_neg_right (κ u w : ℝ) : cornerBound κ u (-w) = cornerBound κ u w := by
  simp only [cornerBound, neg_sq, abs_neg]

theorem cornerBound_eq_zero (κ u w : ℝ) (h : 3 ≤ u ^ 2 + 3 * w ^ 2) :
    cornerBound κ u w = 0 := by
  have : max (1 / 2 - (u ^ 2 + 3 * w ^ 2) / 6) 0 = 0 := max_eq_right (by linarith)
  unfold cornerBound
  rw [this]
  ring

theorem cornerBound_mono (κ κ' u w : ℝ) (h : κ ≤ κ') :
    cornerBound κ u w ≤ cornerBound κ' u w := by
  unfold cornerBound
  apply mul_le_mul_of_nonneg_left _ (by positivity)
  exact max_le_max (mul_le_mul_of_nonneg_right h (abs_nonneg _)) le_rfl

theorem simplexBound_reflect (κ u w : ℝ) : simplexBound κ (2 - u) w = simplexBound κ u w := by
  unfold simplexBound
  have e1 : 2 - u = -(u - 2) := by ring
  have e2 : 2 - u - 1 = -(u - 1) := by ring
  have e3 : 2 - u - 2 = -u := by ring
  rw [e2, e3, e1, cornerBound_neg_left, cornerBound_neg_left, cornerBound_neg_left]
  ring

/-- On the part `-2 ≤ u ≤ 1`, `0 ≤ w ≤ 2` of the plane the bound is checked box by box. -/
theorem simplexBound_le_on_root (u w : ℝ) (hu1 : -2 ≤ u) (hu2 : u ≤ 1) (hw1 : 0 ≤ w)
    (hw2 : w ≤ 2) : simplexBound ((kappaNum : ℝ) / kappaDen) u w ≤ 1 / 70 := by
  have hN : ((gridN : Int) : ℝ) = 1048576 := by norm_num [gridN]
  apply checkBox_sound 20 _ _ _ _ checkBox_root u w
  · push_cast; rw [hN]; linarith
  · rw [hN]; linarith
  · push_cast; rw [hN]; linarith
  · push_cast; rw [hN]; linarith

theorem simplexBound_le_left (u w : ℝ) (hu2 : u ≤ 1) (hw1 : 0 ≤ w) :
    simplexBound ((kappaNum : ℝ) / kappaDen) u w ≤ 1 / 70 := by
  by_cases hw2 : w ≤ 2
  · by_cases hu1 : -2 ≤ u
    · exact simplexBound_le_on_root u w hu1 hu2 hw1 hw2
    · have hu : u < -2 := not_le.mp hu1
      unfold simplexBound
      rw [cornerBound_eq_zero _ u w (by nlinarith [sq_nonneg w]),
        cornerBound_eq_zero _ (u - 1) (w - 1) (by nlinarith [sq_nonneg (w - 1)]),
        cornerBound_eq_zero _ (u - 2) w (by nlinarith [sq_nonneg w])]
      norm_num
  · have hw : 2 < w := not_le.mp hw2
    unfold simplexBound
    rw [cornerBound_eq_zero _ u w (by nlinarith [sq_nonneg u]),
      cornerBound_eq_zero _ (u - 1) (w - 1) (by nlinarith [sq_nonneg (u - 1)]),
      cornerBound_eq_zero _ (u - 2) w (by nlinarith [sq_nonneg (u - 2)])]
    norm_num

/-- The sum of the three corner bounds is at most `1/70` on the whole upper half plane. -/
theorem simplexBound_le (u w : ℝ) (hw1 : 0 ≤ w) :
    simplexBound ((kappaNum : ℝ) / kappaDen) u w ≤ 1 / 70 := by
  rcases le_total u 1 with h | h
  · exact simplexBound_le_left u w h hw1
  · rw [← simplexBound_reflect]
    exact simplexBound_le_left (2 - u) w (by linarith) hw1

theorem grad3_components (gi : Nat) :
    ((grad3.getD gi ⟨0, 0, 0⟩).x = -1 ∨ (grad3.getD gi ⟨0, 0, 0⟩).x = 0
        ∨ (grad3.getD gi ⟨0, 0, 0⟩).x = 1) ∧
      ((grad3.getD gi ⟨0, 0, 0⟩).y = -1 ∨ (grad3.getD gi ⟨0, 0, 0⟩).y = 0
        ∨ (grad3.getD gi ⟨0, 0, 0⟩).y = 1) := by
  by_cases h : gi < 12
  · interval_cases gi <;> simp [grad3]
  · rw [List.getD_eq_default _ _ (by simp only [grad3, List.length]; omega)]
    simp

theorem dot_abs_le (g : Grad) (x y : ℝ)
    (hx : g.x = -1 ∨ g.x = 0 ∨ g.x = 1) (hy : g.y = -1 ∨ g.y = 0 ∨ g.y = 1) :
    |dot g x y| ≤ max |x + y| |x - y| := by
  have h1 : x + y ≤ max |x + y| |x - y| := le_trans (le_abs_self _) (le_max_left _ _)
  have h2 : -(x + y) ≤ max |x + y| |x - y| := le_trans (neg_le_abs _) (le_max_left _ _)
  have h3 : x - y ≤ max |x + y| |x - y| := le_trans (le_abs_self _) (le_max_right _ _)
  have h4 : -(x - y) ≤ max |x + y| |x - y| := le_trans (neg_le_abs _) (le_max_right _ _)
  unfold dot
  rw [abs_le]
  rcases hx with hx | hx | hx <;> rcases hy with hy | hy | hy <;>
    simp only [hx, hy] <;> push_cast <;> constructor <;> linarith

theorem sqrt3_facts : (0 : ℝ) < Real.sqrt 3 ∧ Real.sqrt 3 * Real.sqrt 3 = 3 :=
  ⟨Real.sqrt_pos.mpr (by norm_num), Real.mul_self_sqrt (by norm_num)⟩

/-- One corner contributes at most its bound. -/
theorem corner_abs_le (gi : Nat) (x y : ℝ) :
    |corner gi x y|
      ≤ cornerBound ((kappaNum : ℝ) / kappaDen) (Real.sqrt 3 * (x + y)) (x - y) := by
  obtain ⟨hc0, hc⟩ := sqrt3_facts
  have hk : 1 / Real.sqrt 3 ≤ (kappaNum : ℝ) / kappaDen := by
    rw [div_le_iff₀ hc0]
    norm_num [kappaNum, kappaDen]
    nlinarith
  refine le_trans ?_ (cornerBound_mono _ _ _ _ hk)
  obtain ⟨gx, gy⟩ := grad3_components gi
  have hd := dot_abs_le (grad3.getD gi ⟨0, 0, 0⟩) x y gx gy
  have ht : (1 : ℝ) / 2 - ((Real.sqrt 3 * (x + y)) ^ 2 + 3 * (x - y) ^ 2) / 6
      = 0.5 - x * x - y * y := by
    have : (Real.sqrt 3 * (x + y)) ^ 2 = 3 * (x + y) ^ 2 := by
      rw [mul_pow, sq, hc]
    rw [this]; norm_num; ring
  have hm : max (1 / Real.sqrt 3 * |Real.sqrt 3 * (x + y)|) |x - y|
      = max |x + y| |x - y| := by
    rw [abs_mul, abs_of_pos hc0, ← mul_assoc, one_div, inv_mul_cancel₀ (ne_of_gt hc0), one_mul]
  unfold cornerBound
  rw [ht, hm]
  unfold corner
  simp only []
  split_ifs with h
  · rw [max_eq_left h, abs_mul, abs_of_nonneg (by positivity :
      (0 : ℝ) ≤ (0.5 - x * x - y * y) * (0.5 - x * x - y * y)
        * ((0.5 - x * x - y * y) * (0.5 - x * x - y * y)))]
    have e : (0.5 - x * x - y * y) * (0.5 - x * x - y * y)
        * ((0.5 - x * x - y * y) * (0.5 - x * x - y * y)) = (0.5 - x * x - y * y) ^ 4 := by
      ring
    rw [e]
    exact mul_le_mul_of_nonneg_left hd (by positivity)
  · rw [abs_zero]
    positivity

/-- The value of `noise` never leaves `[-1, 1]`, on any tables and at any point. -/
theorem noiseValue_abs_le_one (perm permMod12 : List Nat) (xin yin : ℝ) :
    |noiseValue F2 G2 perm permMod12 xin yin| ≤ 1 := by
  obtain ⟨hc0, hc⟩ := sqrt3_facts
  have hG : Real.sqrt 3 * (2 * G2 - 1) = -1 := by
    unfold G2
    norm_num
    field_simp
    nlinarith
  unfold noiseValue
  simp only []
  generalize xin - ((fastFloor (xin + (xin + yin) * F2) : ℝ)
    - ((wrapInt32 (fastFloor (xin + (xin + yin) * F2) + fastFloor (yin + (xin + yin) * F2))
        : Int) : ℝ) * G2) = x0
  generalize yin - ((fastFloor (yin + (xin + yin) * F2) : ℝ)
    - ((wrapInt32 (fastFloor (xin + (xin + yin) * F2) + fastFloor (yin + (xin + yin) * F2))
        : Int) : ℝ) * G2) = y0
  generalize bits32 (fastFloor (xin + (xin + yin) * F2)) &&& 255 = ii
  generalize bits32 (fastFloor (yin + (xin + yin) * F2)) &&& 255 = jj
  have h70 : (70.0 : ℝ) = 70 := by norm_num
  rw [h70, abs_mul, abs_of_pos (by norm_num : (0 : ℝ) < 70)]
  by_cases h : x0 > y0
  · simp only [h, if_true]
    have b0 := corner_abs_le (permMod12.getD (ii + perm.getD jj 0) 0) x0 y0
    have b1 := corner_abs_le (permMod12.getD (ii + 1 + perm.getD (jj + 0) 0) 0)
      (x0 - ((1 : Nat) : ℝ) + G2) (y0 - ((0 : Nat) : ℝ) + G2)
    have b2 := corner_abs_le (permMod12.getD (ii + 1 + perm.getD (jj + 1) 0) 0)
      (x0 - 1.0 + 2.0 * G2) (y0 - 1.0 + 2.0 * G2)
    have e1 : Real.sqrt 3 * (x0 - ((1 : Nat) : ℝ) + G2 + (y0 - ((0 : Nat) : ℝ) + G2))
        = Real.sqrt 3 * (x0 + y0) - 1 := by
      push_cast; linear_combination hG
    have e1' : x0 - ((1 : Nat) : ℝ) + G2 - (y0 - ((0 : Nat) : ℝ) + G2) = (x0 - y0) - 1 := by
      push_cast; ring
    have e2 : Real.sqrt 3 * (x0 - 1.0 + 2.0 * G2 + (y0 - 1.0 + 2.0 * G2))
        = Real.sqrt 3 * (x0 + y0) - 2 := by
      norm_num; linear_combination 2 * hG
    have e2' : x0 - 1.0 + 2.0 * G2 - (y0 - 1.0 + 2.0 * G2) = x0 - y0 := by ring
    rw [e1, e1'] at b1
    rw [e2, e2'] at b2
    have hs := simplexBound_le (Real.sqrt 3 * (x0 + y0)) (x0 - y0) (by linarith)
    unfold simplexBound at hs
    have habs := abs_add_three (corner (permMod12.getD (ii + perm.getD jj 0) 0) x0 y0)
      (corner (permMod12.getD (ii + 1 + perm.getD (jj + 0) 0) 0)
        (x0 - ((1 : Nat) : ℝ) + G2) (y0 - ((0 : Nat) : ℝ) + G2))
      (corner (permMod12.getD (ii + 1 + perm.getD (jj + 1) 0) 0)
        (x0 - 1.0 + 2.0 * G2) (y0 - 1.0 + 2.0 * G2))
    linarith
  · simp only [h, if_false]
    have b0 := corner_abs_le (permMod12.getD (ii + perm.getD jj 0) 0) x0 y0
    have b1 := corner_abs_le (permMod12.getD (ii + 0 + perm.getD (jj + 1) 0) 0)
      (x0 - ((0 : Nat) : ℝ) + G2) (y0 - ((1 : Nat) : ℝ) + G2)
    have b2 := corner_abs_le (permMod12.getD (ii + 1 + perm.getD (jj + 1) 0) 0)
      (x0 - 1.0 + 2.0 * G2) (y0 - 1.0 + 2.0 * G2)
    have e1 : Real.sqrt 3 * (x0 - ((0 : Nat) : ℝ) + G2 + (y0 - ((1 : Nat) : ℝ) + G2))
        = Real.sqrt 3 * (x0 + y0) - 1 := by
      push_cast; linear_combination hG
    have e1' : x0 - ((0 : Nat) : ℝ) + G2 - (y0 - ((1 : Nat) : ℝ) + G2)
        = -((-(x0 - y0)) - 1) := by
      push_cast; ring
    have e2 : Real.sqrt 3 * (x0 - 1.0 + 2.0 * G2 + (y0 - 1.0 + 2.0 * G2))
        = Real.sqrt 3 * (x0 + y0) - 2 := by
      norm_num; linear_combination 2 * hG
    have e2' : x0 - 1.0 + 2.0 * G2 - (y0 - 1.0 + 2.0 * G2) = -(-(x0 - y0)) := by ring
    have e0 : x0 - y0 = -(-(x0 - y0)) := by ring
    rw [e0, cornerBound_neg_right] at b0
    rw [e1, e1', cornerBound_neg_right] at b1
    rw [e2, e2', cornerBound_neg_right] at b2
    have hs := simplexBound_le (Real.sqrt 3 * (x0 + y0)) (-(x0 - y0))
      (by linarith [not_lt.mp h])
    unfold simplexBound at hs
    have habs := abs_add_three (corner (permMod12.getD (ii + perm.getD jj 0) 0) x0 y0)
      (corner (permMod12.getD (ii + 0 + perm.getD (jj + 1) 0) 0)
        (x0 - ((0 : Nat) : ℝ) + G2) (y0 - ((1 : Nat) : ℝ) + G2))
      (corner (permMod12.getD (ii + 1 + perm.getD (jj + 1) 0) 0)
        (x0 - 1.0 + 2.0 * G2) (y0 - 1.0 + 2.0 * G2))
    linarith


/-- **C7.** `noise` returns a value in `[-1, 1]`: for every point `(x, y)` whose
skewed coordinates `x + s`, `y + s` fit the 32-bit cell index, and every table
state in which all entries of `permMod12` are below 12, `-1 <= noise(x, y) <= 1`
over the reals.  (The bound is `noiseValue_abs_le_one`, which holds for all
offsets and gradient indices.) -/
theorem noise_range {σ : Type} (rng : Rng σ) (millis : Nat) (st : State σ) (xin yin : ℝ)
    (_h12 : ∀ v ∈ st.permMod12, v < 12)
    (_hx : -2147483648 ≤ xin + (xin + yin) * F2 ∧ xin + (xin + yin) * F2 < 2147483648)
    (_hy : -2147483648 ≤ yin + (xin + yin) * F2 ∧ yin + (xin + yin) * F2 < 2147483648) :
    -1 ≤ (noise rng F2 G2 millis st xin yin).1 ∧
      (noise rng F2 G2 millis st xin yin).1 ≤ 1 := by
  have h := noiseValue_abs_le_one
    (if !st.initialized then initDefault rng millis st else st).perm
    (if !st.initialized then initDefault rng millis st else st).permMod12 xin yin
  exact abs_le.mp h

theorem noise_range_witness :
    (∀ v ∈ (initialState (0 : Nat)).permMod12, v < 12) ∧
    (-2147483648 ≤ (0 : ℝ) + (0 + 0) * F2 ∧ (0 : ℝ) + (0 + 0) * F2 < 2147483648) ∧
    -1 ≤ (noise parkMiller F2 G2 7 (initialState 0) 0 0).1 ∧
      (noise parkMiller F2 G2 7 (initialState 0) 0 0).1 ≤ 1 :=
  have h12 : ∀ v ∈ (initialState (0 : Nat)).permMod12, v < 12 := by
    intro v hv
    simp only [initialState, List.mem_replicate] at hv
    omega
  have hr : -2147483648 ≤ (0 : ℝ) + (0 + 0) * F2 ∧ (0 : ℝ) + (0 + 0) * F2 < 2147483648 := by
    norm_num
  ⟨h12, hr, noise_range parkMiller 7 (initialState 0) 0 0 h12 hr hr⟩

/-! ### Continuity of `noise` -/

theorem wrapInt32_of_range (z : Int) (h1 : -2147483648 ≤ z) (h2 : z < 2147483648) :
    wrapInt32 z = z := by
  unfold wrapInt32
  omega

theorem fastFloor_eq_floor {K : Type} [LinearOrderedField K] [FloorRing K] (x : K)
    (h1 : (-2147483648 : K) ≤ x) (h2 : x < 2147483648) : fastFloor x = ⌊x⌋ := by
  have hf1 : (-2147483648 : Int) ≤ ⌊x⌋ := Int.le_floor.mpr (by exact_mod_cast h1)
  have hf2 : ⌊x⌋ < (2147483648 : Int) := Int.floor_lt.mpr (by exact_mod_cast h2)
  unfold fastFloor toInt32
  by_cases h0 : 0 ≤ x
  · simp only [h0, if_true]
    rw [wrapInt32_of_range _ hf1 hf2]
    simp only [not_lt.mpr (Int.floor_le x), if_false]
  · simp only [h0, if_false]
    have hx0 : x < 0 := not_le.mp h0
    have hc1 : (-2147483648 : Int) ≤ ⌈x⌉ := by
      have : ((-2147483648 : Int) : K) ≤ ((⌈x⌉ : Int) : K) := by
        push_cast; exact le_trans h1 (Int.le_ceil x)
      exact_mod_cast this
    have hc2 : ⌈x⌉ ≤ (0 : Int) := Int.ceil_le.mpr (by exact_mod_cast hx0.le)
    rw [wrapInt32_of_range _ hc1 (by omega)]
    by_cases hlt : x < ((⌈x⌉ : Int) : K)
    · simp only [hlt, if_true]
      have h3 : ⌊x⌋ < ⌈x⌉ := by
        have : ((⌊x⌋ : Int) : K) < ((⌈x⌉ : Int) : K) := lt_of_le_of_lt (Int.floor_le x) hlt
        exact_mod_cast this
      have h4 := Int.ceil_le_floor_add_one x
      have h5 : ⌈x⌉ - 1 = ⌊x⌋ := by omega
      rw [h5, wrapInt32_of_range _ hf1 hf2]
    · simp only [hlt, if_false]
      have h3 : x = ((⌈x⌉ : Int) : K) := le_antisymm (Int.le_ceil x) (not_lt.mp hlt)
      conv_rhs => rw [h3]
      exact (Int.floor_intCast _).symm

theorem bits32_and_255 (i : Int) : bits32 i &&& 255 = (i % 256).toNat := by
  unfold bits32
  have h : (255 : Nat) = 2 ^ 8 - 1 := by norm_num
  rw [h, Nat.and_pow_two_sub_one_eq_mod]
  omega

/-- Hash consistency: the index used from the cell `(i, j)` for the corner
`(i + di, j + dj)` is the index of that lattice point. -/
theorem hash_step (perm permMod12 : List Nat) (hD : Doubled perm permMod12) (i j : Int)
    (di dj : Nat) (hdi : di ≤ 1) (hdj : dj ≤ 1) :
    permMod12.getD ((i % 256).toNat + di + perm.getD ((j % 256).toNat + dj) 0) 0
      = hashIdx perm permMod12 (i + di) (j + dj) := by
  obtain ⟨h1, h2, h3⟩ := hD
  unfold hashIdx
  have hp : perm.getD ((j % 256).toNat + dj) 0 = perm.getD (((j + dj) % 256).toNat) 0 := by
    by_cases hj : (j % 256).toNat + dj < 256
    · congr 1; omega
    · have e1 : (j % 256).toNat + dj = 0 + 256 := by omega
      have e2 : ((j + dj) % 256).toNat = 0 := by omega
      rw [e1, e2, h1 0 (by norm_num)]
  rw [hp]
  have hlt := h3 (((j + dj) % 256).toNat)
  generalize perm.getD (((j + dj) % 256).toNat) 0 = q at hlt
  by_cases hi : (i % 256).toNat + di < 256
  · congr 1; omega
  · have e1 : (i % 256).toNat + di + q = q + 256 := by omega
    have e2 : ((i + di) % 256).toNat = 0 := by omega
    rw [e1, e2, h2 q hlt, zero_add]



theorem G2_eq : G2 = (3 - Real.sqrt 3) / 6 := by
  unfold G2; norm_num

theorem F2_eq : F2 = (Real.sqrt 3 - 1) / 2 := by
  unfold F2; norm_num; ring

/-- Unskewing undoes skewing: `(1 + 2 F2) G2 = F2`. -/
theorem skew_unskew : (1 + 2 * F2) * G2 = F2 := by
  obtain ⟨_, hc⟩ := sqrt3_facts
  rw [G2_eq, F2_eq]
  linear_combination (-1 / 6 : ℝ) * hc

theorem G2_sq : 2 * G2 * (1 - G2) = 1 / 3 := by
  obtain ⟨_, hc⟩ := sqrt3_facts
  rw [G2_eq]
  linear_combination (-1 / 18 : ℝ) * hc

/-- The value of `noise` in terms of the three corners of the simplex that
contains the point, when the cell index and the sum `i + j` fit `int32_t`. -/
theorem noiseValue_cell (perm permMod12 : List Nat) (hD : Doubled perm permMod12)
    (x y : ℝ) (i j : Int)
    (hx1 : (-2147483648 : ℝ) ≤ x + (x + y) * F2) (hx2 : x + (x + y) * F2 < 2147483648)
    (hy1 : (-2147483648 : ℝ) ≤ y + (x + y) * F2) (hy2 : y + (x + y) * F2 < 2147483648)
    (hi : ⌊x + (x + y) * F2⌋ = i) (hj : ⌊y + (x + y) * F2⌋ = j)
    (hs1 : -2147483648 ≤ i + j) (hs2 : i + j < 2147483648) :
    noiseValue F2 G2 perm permMod12 x y
      = 70 * (latticeTerm G2 perm permMod12 i j x y
          + (if y - j < x - i then latticeTerm G2 perm permMod12 (i + 1) j x y
              else latticeTerm G2 perm permMod12 i (j + 1) x y)
          + latticeTerm G2 perm permMod12 (i + 1) (j + 1) x y) := by
  have hfi : fastFloor (x + (x + y) * F2) = i := by
    rw [fastFloor_eq_floor _ hx1 hx2, hi]
  have hfj : fastFloor (y + (x + y) * F2) = j := by
    rw [fastFloor_eq_floor _ hy1 hy2, hj]
  have h70 : (70.0 : ℝ) = 70 := by norm_num
  have hg0 := hash_step perm permMod12 hD i j 0 0 (by norm_num) (by norm_num)
  have hg10 := hash_step perm permMod12 hD i j 1 0 (by norm_num) (by norm_num)
  have hg01 := hash_step perm permMod12 hD i j 0 1 (by norm_num) (by norm_num)
  have hg11 := hash_step perm permMod12 hD i j 1 1 (by norm_num) (by norm_num)
  simp only [Nat.cast_zero, Nat.cast_one, add_zero] at hg0 hg10 hg01 hg11
  unfold noiseValue
  simp only [hfi, hfj, wrapInt32_of_range _ hs1 hs2, bits32_and_255, h70]
  have hc : (x - ((i : ℝ) - ((i + j : Int) : ℝ) * G2) > y - ((j : ℝ) - ((i + j : Int) : ℝ) * G2))
      ↔ (y - j < x - i) := by
    constructor <;> intro h <;> linarith
  have e10 : ∀ g, corner g (x - ((i : ℝ) - ((i + j : Int) : ℝ) * G2) - ((1 : Nat) : ℝ) + G2)
      (y - ((j : ℝ) - ((i + j : Int) : ℝ) * G2) - ((0 : Nat) : ℝ) + G2)
      = corner g (x - (((i + 1 : Int) : ℝ) - ((i + 1 + j : Int) : ℝ) * G2))
          (y - ((j : ℝ) - ((i + 1 + j : Int) : ℝ) * G2)) := by
    intro g; congr 1 <;> push_cast <;> ring
  have e01 : ∀ g, corner g (x - ((i : ℝ) - ((i + j : Int) : ℝ) * G2) - ((0 : Nat) : ℝ) + G2)
      (y - ((j : ℝ) - ((i + j : Int) : ℝ) * G2) - ((1 : Nat) : ℝ) + G2)
      = corner g (x - ((i : ℝ) - ((i + (j + 1) : Int) : ℝ) * G2))
          (y - (((j + 1 : Int) : ℝ) - ((i + (j + 1) : Int) : ℝ) * G2)) := by
    intro g; congr 1 <;> push_cast <;> ring
  have e11 : ∀ g, corner g (x - ((i : ℝ) - ((i + j : Int) : ℝ) * G2) - 1.0 + 2.0 * G2)
      (y - ((j : ℝ) - ((i + j : Int) : ℝ) * G2) - 1.0 + 2.0 * G2)
      = corner g (x - (((i + 1 : Int) : ℝ) - ((i + 1 + (j + 1) : Int) : ℝ) * G2))
          (y - (((j + 1 : Int) : ℝ) - ((i + 1 + (j + 1) : Int) : ℝ) * G2)) := by
    intro g; congr 1 <;> push_cast <;> ring
  by_cases h : y - j < x - i
  · simp only [hc.mpr h, h, if_true, add_zero, hg0, hg10, hg11, e10, e11]
    rfl
  · have h' : ¬ (x - ((i : ℝ) - ((i + j : Int) : ℝ) * G2)
        > y - ((j : ℝ) - ((i + j : Int) : ℝ) * G2)) := fun hh => h (hc.mp hh)
    simp only [h', h, if_false, add_zero, hg0, hg01, hg11, e01, e11]
    rfl


/-- Squared distance of a point from a lattice corner, in skewed offsets. -/
theorem corner_dist (x y : ℝ) (a b : Int) :
    (x - ((a : ℝ) - ((a + b : Int) : ℝ) * G2)) * (x - ((a : ℝ) - ((a + b : Int) : ℝ) * G2))
      + (y - ((b : ℝ) - ((a + b : Int) : ℝ) * G2)) * (y - ((b : ℝ) - ((a + b : Int) : ℝ) * G2))
      = 2 / 3 * ((x + (x + y) * F2 - a) ^ 2 - (x + (x + y) * F2 - a) * (y + (x + y) * F2 - b)
          + (y + (x + y) * F2 - b) ^ 2) := by
  have h1 := skew_unskew
  have h2 := G2_sq
  have ex : x - ((a : ℝ) - ((a + b : Int) : ℝ) * G2)
      = (x + (x + y) * F2 - a) - ((x + (x + y) * F2 - a) + (y + (x + y) * F2 - b)) * G2 := by
    push_cast
    linear_combination (x + y) * h1
  have ey : y - ((b : ℝ) - ((a + b : Int) : ℝ) * G2)
      = (y + (x + y) * F2 - b) - ((x + (x + y) * F2 - a) + (y + (x + y) * F2 - b)) * G2 := by
    push_cast
    linear_combination (x + y) * h1
  rw [ex, ey]
  generalize x + (x + y) * F2 - a = du
  generalize y + (x + y) * F2 - b = dv
  linear_combination (-(du + dv) ^ 2) * h2

theorem corner_eq_zero_of_far (gi : Nat) (X Y : ℝ) (h : 1 / 2 ≤ X * X + Y * Y) :
    corner gi X Y = 0 := by
  unfold corner
  simp only []
  split_ifs with ht
  · have h05 : (0.5 : ℝ) = 1 / 2 := by norm_num
    have : (0.5 : ℝ) - X * X - Y * Y = 0 := le_antisymm (by rw [h05]; linarith) ht
    rw [this]; ring
  · rfl

/-- A lattice corner at skewed distance `du² - du dv + dv² ≥ 3/4` contributes nothing. -/
theorem latticeTerm_eq_zero (perm permMod12 : List Nat) (a b : Int) (x y : ℝ)
    (h : 3 / 4 ≤ (x + (x + y) * F2 - a) ^ 2
        - (x + (x + y) * F2 - a) * (y + (x + y) * F2 - b) + (y + (x + y) * F2 - b) ^ 2) :
    latticeTerm G2 perm permMod12 a b x y = 0 := by
  unfold latticeTerm
  apply corner_eq_zero_of_far
  rw [corner_dist]
  linarith

/-- Only the corners of the simplex that contains the point are nearer than that. -/
theorem near_corner (f g : ℝ) (m n : Int) (hf0 : 0 ≤ f) (hf1 : f < 1) (hg0 : 0 ≤ g)
    (hg1 : g < 1) (h : (f - m) ^ 2 - (f - m) * (g - n) + (g - n) ^ 2 < 3 / 4) :
    (m = 0 ∧ n = 0) ∨ (m = 1 ∧ n = 1) ∨ (m = 1 ∧ n = 0 ∧ g < f) ∨ (m = 0 ∧ n = 1 ∧ f ≤ g) := by
  have hn : (g - n) ^ 2 < 1 := by nlinarith [sq_nonneg ((f - m) - (g - n) / 2)]
  have hm : (f - m) ^ 2 < 1 := by nlinarith [sq_nonneg ((g - n) - (f - m) / 2)]
  have hn1 : -1 < g - n ∧ g - n < 1 := abs_lt.mp (by
    rw [← abs_one, ← sq_lt_sq]; simpa using hn)
  have hm1 : -1 < f - m ∧ f - m < 1 := abs_lt.mp (by
    rw [← abs_one, ← sq_lt_sq]; simpa using hm)
  have n0 : (-1 : ℝ) < n := by linarith [hn1.2]
  have n1 : (n : ℝ) < 2 := by linarith [hn1.1]
  have m0 : (-1 : ℝ) < m := by linarith [hm1.2]
  have m1 : (m : ℝ) < 2 := by linarith [hm1.1]
  have n0' : -1 < n := by exact_mod_cast n0
  have n1' : n < 2 := by exact_mod_cast n1
  have m0' : -1 < m := by exact_mod_cast m0
  have m1' : m < 2 := by exact_mod_cast m1
  have hmc : m = 0 ∨ m = 1 := by omega
  have hnc : n = 0 ∨ n = 1 := by omega
  rcases hmc with rfl | rfl <;> rcases hnc with rfl | rfl
  · exact Or.inl ⟨rfl, rfl⟩
  · refine Or.inr (Or.inr (Or.inr ⟨rfl, rfl, ?_⟩))
    by_contra hc
    push_neg at hc
    push_cast at h
    nlinarith [sq_nonneg (f - (1 - g)), mul_pos (sub_pos.mpr hc) (sub_pos.mpr hc)]
  · refine Or.inr (Or.inr (Or.inl ⟨rfl, rfl, ?_⟩))
    by_contra hc
    push_neg at hc
    push_cast at h
    nlinarith [sq_nonneg ((1 - f) - g), sq_nonneg (g - f)]
  · exact Or.inr (Or.inl ⟨rfl, rfl⟩)


theorem latticeTerm_vanish (perm permMod12 : List Nat) (x y : ℝ) (i j a b : Int)
    (hi : ⌊x + (x + y) * F2⌋ = i) (hj : ⌊y + (x + y) * F2⌋ = j)
    (hne : ¬ ((a = i ∧ b = j) ∨ (a = i + 1 ∧ b = j + 1) ∨
      (a = i + 1 ∧ b = j ∧ y - j < x - i) ∨ (a = i ∧ b = j + 1 ∧ ¬ (y - j < x - i)))) :
    latticeTerm G2 perm permMod12 a b x y = 0 := by
  by_contra hnz
  have hq : (x + (x + y) * F2 - a) ^ 2
      - (x + (x + y) * F2 - a) * (y + (x + y) * F2 - b) + (y + (x + y) * F2 - b) ^ 2
      < 3 / 4 := by
    by_contra hq
    exact hnz (latticeTerm_eq_zero perm permMod12 a b x y (not_lt.mp hq))
  have hf0 : (0 : ℝ) ≤ x + (x + y) * F2 - i := by
    have := Int.floor_le (x + (x + y) * F2); rw [hi] at this; linarith
  have hf1 : x + (x + y) * F2 - i < 1 := by
    have := Int.lt_floor_add_one (x + (x + y) * F2); rw [hi] at this; linarith
  have hg0 : (0 : ℝ) ≤ y + (x + y) * F2 - j := by
    have := Int.floor_le (y + (x + y) * F2); rw [hj] at this; linarith
  have hg1 : y + (x + y) * F2 - j < 1 := by
    have := Int.lt_floor_add_one (y + (x + y) * F2); rw [hj] at this; linarith
  have hq' : ((x + (x + y) * F2 - i) - ((a - i : Int) : ℝ)) ^ 2
      - ((x + (x + y) * F2 - i) - ((a - i : Int) : ℝ))
        * ((y + (x + y) * F2 - j) - ((b - j : Int) : ℝ))
      + ((y + (x + y) * F2 - j) - ((b - j : Int) : ℝ)) ^ 2 < 3 / 4 := by
    push_cast
    have e1 : x + (x + y) * F2 - i - ((a : ℝ) - i) = x + (x + y) * F2 - a := by ring
    have e2 : y + (x + y) * F2 - j - ((b : ℝ) - j) = y + (x + y) * F2 - b := by ring
    rw [e1, e2]
    exact hq
  rcases near_corner _ _ (a - i) (b - j) hf0 hf1 hg0 hg1 hq' with h | h | h | h
  · exact hne (Or.inl ⟨by omega, by omega⟩)
  · exact hne (Or.inr (Or.inl ⟨by omega, by omega⟩))
  · exact hne (Or.inr (Or.inr (Or.inl ⟨by omega, by omega, by linarith [h.2.2]⟩)))
  · exact hne (Or.inr (Or.inr (Or.inr ⟨by omega, by omega, by linarith [h.2.2]⟩)))

/-- The value of `noise` as a sum over any finite set of lattice corners that
contains the corners of the cell of the point. -/
theorem noiseValue_sum (perm permMod12 : List Nat) (hD : Doubled perm permMod12)
    (x y : ℝ) (i j : Int)
    (hx1 : (-2147483648 : ℝ) ≤ x + (x + y) * F2) (hx2 : x + (x + y) * F2 < 2147483648)
    (hy1 : (-2147483648 : ℝ) ≤ y + (x + y) * F2) (hy2 : y + (x + y) * F2 < 2147483648)
    (hi : ⌊x + (x + y) * F2⌋ = i) (hj : ⌊y + (x + y) * F2⌋ = j)
    (hs1 : -2147483648 ≤ i + j) (hs2 : i + j < 2147483648)
    (B : Finset (Int × Int))
    (h00 : (i, j) ∈ B) (h10 : (i + 1, j) ∈ B) (h01 : (i, j + 1) ∈ B)
    (h11 : (i + 1, j + 1) ∈ B) :
    noiseValue F2 G2 perm permMod12 x y
      = 70 * B.sum (fun ab => latticeTerm G2 perm permMod12 ab.1 ab.2 x y) := by
  rw [noiseValue_cell perm permMod12 hD x y i j hx1 hx2 hy1 hy2 hi hj hs1 hs2]
  congr 1
  by_cases h : y - j < x - i
  · simp only [h, if_true]
    have hsub : ({(i, j), (i + 1, j), (i + 1, j + 1)} : Finset (Int × Int)) ⊆ B := by
      intro ab hab
      simp only [Finset.mem_insert, Finset.mem_singleton] at hab
      rcases hab with rfl | rfl | rfl <;> assumption
    rw [← Finset.sum_subset hsub]
    · rw [Finset.sum_insert (by simp), Finset.sum_insert (by simp), Finset.sum_singleton]
      ring
    · intro ab _ hab
      simp only [Finset.mem_insert, Finset.mem_singleton] at hab
      apply latticeTerm_vanish perm permMod12 x y i j ab.1 ab.2 hi hj
      rintro (⟨h1, h2⟩ | ⟨h1, h2⟩ | ⟨h1, h2, _⟩ | ⟨_, _, h3⟩)
      · exact hab (Or.inl (Prod.ext h1 h2))
      · exact hab (Or.inr (Or.inr (Prod.ext h1 h2)))
      · exact hab (Or.inr (Or.inl (Prod.ext h1 h2)))
      · exact h3 h
  · simp only [h, if_false]
    have hsub : ({(i, j), (i, j + 1), (i + 1, j + 1)} : Finset (Int × Int)) ⊆ B := by
      intro ab hab
      simp only [Finset.mem_insert, Finset.mem_singleton] at hab
      rcases hab with rfl | rfl | rfl <;> assumption
    rw [← Finset.sum_subset hsub]
    · rw [Finset.sum_insert (by simp), Finset.sum_insert (by simp), Finset.sum_singleton]
      ring
    · intro ab _ hab
      simp only [Finset.mem_insert, Finset.mem_singleton] at hab
      apply latticeTerm_vanish perm permMod12 x y i j ab.1 ab.2 hi hj
      rintro (⟨h1, h2⟩ | ⟨h1, h2⟩ | ⟨_, _, h3⟩ | ⟨h1, h2, _⟩)
      · exact hab (Or.inl (Prod.ext h1 h2))
      · exact hab (Or.inr (Or.inr (Prod.ext h1 h2)))
      · exact h h3
      · exact hab (Or.inr (Or.inl (Prod.ext h1 h2)))

theorem corner_eq_max (gi : Nat) (X Y : ℝ) :
    corner gi X Y = (max (0.5 - X * X - Y * Y) 0) ^ 4 * dot (grad3.getD gi ⟨0, 0, 0⟩) X Y := by
  unfold corner
  simp only []
  split_ifs with ht
  · rw [max_eq_left ht]; ring
  · rw [max_eq_right (le_of_lt (not_le.mp ht))]; ring

theorem latticeTerm_continuous (perm permMod12 : List Nat) (a b : Int) :
    Continuous (fun q : ℝ × ℝ => latticeTerm G2 perm permMod12 a b q.1 q.2) := by
  unfold latticeTerm
  simp only [corner_eq_max, dot]
  fun_prop


/-- Where the skewed coordinates are below `2^30` in absolute value, `noise` is
continuous at the point, on any tables that repeat with period 256. -/
theorem noiseValue_continuousAt (perm permMod12 : List Nat) (hD : Doubled perm permMod12)
    (x0 y0 : ℝ) (hx : |x0 + (x0 + y0) * F2| < 1073741824)
    (hy : |y0 + (x0 + y0) * F2| < 1073741824) :
    ContinuousAt (fun q : ℝ × ℝ => noiseValue F2 G2 perm permMod12 q.1 q.2) (x0, y0) := by
  have hF : Continuous (fun q : ℝ × ℝ =>
      70 * (Finset.Icc (⌊x0 + (x0 + y0) * F2⌋ - 1) (⌊x0 + (x0 + y0) * F2⌋ + 2)
          ×ˢ Finset.Icc (⌊y0 + (x0 + y0) * F2⌋ - 1) (⌊y0 + (x0 + y0) * F2⌋ + 2)).sum
        (fun ab => latticeTerm G2 perm permMod12 ab.1 ab.2 q.1 q.2)) :=
    continuous_const.mul
      (continuous_finset_sum _ fun ab _ => latticeTerm_continuous perm permMod12 ab.1 ab.2)
  have hxs : Continuous (fun q : ℝ × ℝ => q.1 + (q.1 + q.2) * F2) := by fun_prop
  have hys : Continuous (fun q : ℝ × ℝ => q.2 + (q.1 + q.2) * F2) := by fun_prop
  have hW : IsOpen ({q : ℝ × ℝ | |q.1 + (q.1 + q.2) * F2| < 1073741824}
      ∩ ({q : ℝ × ℝ | |q.2 + (q.1 + q.2) * F2| < 1073741824}
      ∩ ({q : ℝ × ℝ | |q.1 + (q.1 + q.2) * F2 - (x0 + (x0 + y0) * F2)| < 1}
      ∩ {q : ℝ × ℝ | |q.2 + (q.1 + q.2) * F2 - (y0 + (x0 + y0) * F2)| < 1}))) :=
    (isOpen_lt hxs.abs continuous_const).inter
      ((isOpen_lt hys.abs continuous_const).inter
        ((isOpen_lt (hxs.sub continuous_const).abs continuous_const).inter
          (isOpen_lt (hys.sub continuous_const).abs continuous_const)))
  have hmem : (x0, y0) ∈ ({q : ℝ × ℝ | |q.1 + (q.1 + q.2) * F2| < 1073741824}
      ∩ ({q : ℝ × ℝ | |q.2 + (q.1 + q.2) * F2| < 1073741824}
      ∩ ({q : ℝ × ℝ | |q.1 + (q.1 + q.2) * F2 - (x0 + (x0 + y0) * F2)| < 1}
      ∩ {q : ℝ × ℝ | |q.2 + (q.1 + q.2) * F2 - (y0 + (x0 + y0) * F2)| < 1}))) := by
    refine ⟨hx, hy, ?_, ?_⟩ <;> simp
  refine hF.continuousAt.congr (Filter.eventually_of_mem (hW.mem_nhds hmem) ?_)
  rintro ⟨x, y⟩ ⟨h1, h2, h3, h4⟩
  simp only [Set.mem_setOf_eq] at h1 h2 h3 h4
  rw [abs_lt] at h1 h2 h3 h4
  have a1 := Int.floor_le (x0 + (x0 + y0) * F2)
  have a2 := Int.lt_floor_add_one (x0 + (x0 + y0) * F2)
  have b1 := Int.floor_le (y0 + (x0 + y0) * F2)
  have b2 := Int.lt_floor_add_one (y0 + (x0 + y0) * F2)
  have c1 := Int.floor_le (x + (x + y) * F2)
  have c2 := Int.lt_floor_add_one (x + (x + y) * F2)
  have d1 := Int.floor_le (y + (x + y) * F2)
  have d2 := Int.lt_floor_add_one (y + (x + y) * F2)
  have i1 : ⌊x0 + (x0 + y0) * F2⌋ - 1 ≤ ⌊x + (x + y) * F2⌋ :=
    Int.le_floor.mpr (by push_cast; linarith)
  have i2 : ⌊x + (x + y) * F2⌋ < ⌊x0 + (x0 + y0) * F2⌋ + 2 :=
    Int.floor_lt.mpr (by push_cast; linarith)
  have j1 : ⌊y0 + (x0 + y0) * F2⌋ - 1 ≤ ⌊y + (x + y) * F2⌋ :=
    Int.le_floor.mpr (by push_cast; linarith)
  have j2 : ⌊y + (x + y) * F2⌋ < ⌊y0 + (x0 + y0) * F2⌋ + 2 :=
    Int.floor_lt.mpr (by push_cast; linarith)
  have i3 : (-1073741824 : Int) ≤ ⌊x + (x + y) * F2⌋ :=
    Int.le_floor.mpr (by push_cast; linarith)
  have i4 : ⌊x + (x + y) * F2⌋ < (1073741824 : Int) :=
    Int.floor_lt.mpr (by push_cast; linarith)
  have j3 : (-1073741824 : Int) ≤ ⌊y + (x + y) * F2⌋ :=
    Int.le_floor.mpr (by push_cast; linarith)
  have j4 : ⌊y + (x + y) * F2⌋ < (1073741824 : Int) :=
    Int.floor_lt.mpr (by push_cast; linarith)
  symm
  apply noiseValue_sum perm permMod12 hD x y _ _ (by linarith) (by linarith) (by linarith)
    (by linarith) rfl rfl (by omega) (by omega)
  all_goals
    simp only [Finset.mem_product, Finset.mem_Icc]
    omega


theorem sqrt3_bounds : (3 / 2 : ℝ) < Real.sqrt 3 ∧ Real.sqrt 3 < 9 / 5 := by
  obtain ⟨h0, hc⟩ := sqrt3_facts
  constructor
  · by_contra h
    nlinarith [not_lt.mp h]
  · by_contra h
    nlinarith [not_lt.mp h]

theorem G2_bounds : (1 / 5 : ℝ) < G2 ∧ G2 < 1 / 4 := by
  obtain ⟨h1, h2⟩ := sqrt3_bounds
  rw [G2_eq]
  constructor <;> linarith

theorem F2_bounds : (1 / 4 : ℝ) < F2 ∧ F2 < 1 / 2 := by
  obtain ⟨h1, h2⟩ := sqrt3_bounds
  rw [F2_eq]
  constructor <;> linarith

/-- The skewed coordinates of the points `(xP + e, yP)` used below, where
`(xP, yP)` has skewed coordinates `(2^30, 2^30 + 1/2)`. -/
theorem overflow_point_skew (e : ℝ) :
    (1073741824 - (2147483648 + 1 / 2) * G2 + e)
        + ((1073741824 - (2147483648 + 1 / 2) * G2 + e)
          + (1073741824 + 1 / 2 - (2147483648 + 1 / 2) * G2)) * F2
      = 1073741824 + e * (1 + F2) ∧
    (1073741824 + 1 / 2 - (2147483648 + 1 / 2) * G2)
        + ((1073741824 - (2147483648 + 1 / 2) * G2 + e)
          + (1073741824 + 1 / 2 - (2147483648 + 1 / 2) * G2)) * F2
      = 1073741824 + 1 / 2 + e * F2 := by
  have h := skew_unskew
  constructor
  · linear_combination (-(2147483648 + 1 / 2 : ℝ)) * h
  · linear_combination (-(2147483648 + 1 / 2 : ℝ)) * h

/-- At the point with skewed coordinates `(2^30, 2^30 + 1/2)` the sum `i + j` is
`2^31`, which wraps to `-2^31`: all three corners are far away and the value
is 0. -/
theorem noiseValue_at_overflow (perm permMod12 : List Nat) :
    noiseValue F2 G2 perm permMod12 (1073741824 - (2147483648 + 1 / 2) * G2)
      (1073741824 + 1 / 2 - (2147483648 + 1 / 2) * G2) = 0 := by
  obtain ⟨hs1, hs2⟩ := overflow_point_skew 0
  simp only [add_zero, zero_mul] at hs1 hs2
  have hfi : fastFloor ((1073741824 - (2147483648 + 1 / 2) * G2)
      + ((1073741824 - (2147483648 + 1 / 2) * G2)
        + (1073741824 + 1 / 2 - (2147483648 + 1 / 2) * G2)) * F2) = 1073741824 := by
    rw [hs1, fastFloor_eq_floor _ (by norm_num) (by norm_num)]
    exact Int.floor_eq_iff.mpr ⟨by norm_num, by norm_num⟩
  have hfj : fastFloor ((1073741824 + 1 / 2 - (2147483648 + 1 / 2) * G2)
      + ((1073741824 - (2147483648 + 1 / 2) * G2)
        + (1073741824 + 1 / 2 - (2147483648 + 1 / 2) * G2)) * F2) = 1073741824 := by
    rw [hs2, fastFloor_eq_floor _ (by norm_num) (by norm_num)]
    exact Int.floor_eq_iff.mpr ⟨by norm_num, by norm_num⟩
  have hw : wrapInt32 (1073741824 + 1073741824) = -2147483648 := by decide
  obtain ⟨g1, g2⟩ := G2_bounds
  unfold noiseValue
  simp only [hfi, hfj, hw]
  have hi1 : (0 : ℝ) ≤ ((if (1073741824 - (2147483648 + 1 / 2) * G2)
      - (((1073741824 : Int) : ℝ) - ((-2147483648 : Int) : ℝ) * G2)
      > (1073741824 + 1 / 2 - (2147483648 + 1 / 2) * G2)
      - (((1073741824 : Int) : ℝ) - ((-2147483648 : Int) : ℝ) * G2) then 1 else 0 : Nat) : ℝ) :=
    Nat.cast_nonneg _
  rw [corner_eq_zero_of_far, corner_eq_zero_of_far, corner_eq_zero_of_far]
  · norm_num
  · push_cast
    nlinarith
  · push_cast at hi1 ⊢
    nlinarith
  · push_cast
    nlinarith


/-- Just left of that point the cell is `(2^30 - 1, 2^30)`, whose sum fits. -/
theorem noiseValue_left_of_overflow (perm permMod12 : List Nat)
    (hD : Doubled perm permMod12) (e : ℝ) (he1 : -1 / 4 < e) (he2 : e < 0) :
    noiseValue F2 G2 perm permMod12 (1073741824 - (2147483648 + 1 / 2) * G2 + e)
      (1073741824 + 1 / 2 - (2147483648 + 1 / 2) * G2)
      = 70 * (latticeTerm G2 perm permMod12 1073741823 1073741824
            (1073741824 - (2147483648 + 1 / 2) * G2 + e)
            (1073741824 + 1 / 2 - (2147483648 + 1 / 2) * G2)
          + latticeTerm G2 perm permMod12 1073741824 1073741824
            (1073741824 - (2147483648 + 1 / 2) * G2 + e)
            (1073741824 + 1 / 2 - (2147483648 + 1 / 2) * G2)
          + latticeTerm G2 perm permMod12 1073741824 1073741825
            (1073741824 - (2147483648 + 1 / 2) * G2 + e)
            (1073741824 + 1 / 2 - (2147483648 + 1 / 2) * G2)) := by
  obtain ⟨hs1, hs2⟩ := overflow_point_skew e
  obtain ⟨f1, f2⟩ := F2_bounds
  have hx : -(3 / 8 : ℝ) < e * (1 + F2) ∧ e * (1 + F2) < 0 := by
    constructor <;> nlinarith
  have hy : -(1 / 8 : ℝ) < e * F2 ∧ e * F2 < 0 := by
    constructor <;> nlinarith
  have hi : ⌊(1073741824 - (2147483648 + 1 / 2) * G2 + e)
      + ((1073741824 - (2147483648 + 1 / 2) * G2 + e)
        + (1073741824 + 1 / 2 - (2147483648 + 1 / 2) * G2)) * F2⌋ = 1073741823 := by
    rw [hs1]
    exact Int.floor_eq_iff.mpr ⟨by push_cast; linarith [hx.1], by push_cast; linarith [hx.2]⟩
  have hj : ⌊(1073741824 + 1 / 2 - (2147483648 + 1 / 2) * G2)
      + ((1073741824 - (2147483648 + 1 / 2) * G2 + e)
        + (1073741824 + 1 / 2 - (2147483648 + 1 / 2) * G2)) * F2⌋ = 1073741824 := by
    rw [hs2]
    exact Int.floor_eq_iff.mpr ⟨by push_cast; linarith [hy.1], by push_cast; linarith [hy.2]⟩
  rw [noiseValue_cell perm permMod12 hD _ _ 1073741823 1073741824
    (by rw [hs1]; linarith [hx.1]) (by rw [hs1]; linarith [hx.2])
    (by rw [hs2]; linarith [hy.1]) (by rw [hs2]; linarith [hy.2]) hi hj
    (by norm_num) (by norm_num)]
  have hc : (1073741824 + 1 / 2 - (2147483648 + 1 / 2) * G2) - ((1073741824 : Int) : ℝ)
      < (1073741824 - (2147483648 + 1 / 2) * G2 + e) - ((1073741823 : Int) : ℝ) := by
    push_cast; linarith
  simp only [hc, if_true]
  norm_num

/-- The limit from the left at that point, when the corners `(2^30, 2^30)` and
`(2^30, 2^30 + 1)` carry the gradients `grad3[5]` and `grad3[11]`. -/
theorem left_value_at_overflow (perm permMod12 : List Nat)
    (hA : hashIdx perm permMod12 1073741824 1073741824 = 5)
    (hB : hashIdx perm permMod12 1073741824 1073741825 = 11) :
    70 * (latticeTerm G2 perm permMod12 1073741823 1073741824
            (1073741824 - (2147483648 + 1 / 2) * G2)
            (1073741824 + 1 / 2 - (2147483648 + 1 / 2) * G2)
          + latticeTerm G2 perm permMod12 1073741824 1073741824
            (1073741824 - (2147483648 + 1 / 2) * G2)
            (1073741824 + 1 / 2 - (2147483648 + 1 / 2) * G2)
          + latticeTerm G2 perm permMod12 1073741824 1073741825
            (1073741824 - (2147483648 + 1 / 2) * G2)
            (1073741824 + 1 / 2 - (2147483648 + 1 / 2) * G2)) = 35 / 81 := by
  obtain ⟨hs1, hs2⟩ := overflow_point_skew 0
  simp only [add_zero, zero_mul] at hs1 hs2
  have hG := G2_sq
  have h0 : latticeTerm G2 perm permMod12 1073741823 1073741824
      (1073741824 - (2147483648 + 1 / 2) * G2)
      (1073741824 + 1 / 2 - (2147483648 + 1 / 2) * G2) = 0 := by
    apply latticeTerm_eq_zero
    rw [hs1, hs2]
    norm_num
  have h1 : latticeTerm G2 perm permMod12 1073741824 1073741824
      (1073741824 - (2147483648 + 1 / 2) * G2)
      (1073741824 + 1 / 2 - (2147483648 + 1 / 2) * G2) = (1 / 3) ^ 4 * (G2 / 2) := by
    unfold latticeTerm
    rw [hA, corner_eq_max]
    have ht : (0.5 : ℝ)
        - (1073741824 - (2147483648 + 1 / 2) * G2
            - (((1073741824 : Int) : ℝ) - ((1073741824 + 1073741824 : Int) : ℝ) * G2))
          * (1073741824 - (2147483648 + 1 / 2) * G2
            - (((1073741824 : Int) : ℝ) - ((1073741824 + 1073741824 : Int) : ℝ) * G2))
        - (1073741824 + 1 / 2 - (2147483648 + 1 / 2) * G2
            - (((1073741824 : Int) : ℝ) - ((1073741824 + 1073741824 : Int) : ℝ) * G2))
          * (1073741824 + 1 / 2 - (2147483648 + 1 / 2) * G2
            - (((1073741824 : Int) : ℝ) - ((1073741824 + 1073741824 : Int) : ℝ) * G2))
        = 1 / 3 := by
      push_cast
      norm_num
      linear_combination (1 / 4 : ℝ) * hG
    rw [ht, max_eq_left (by norm_num)]
    simp only [grad3, dot, List.getD_cons_succ, List.getD_cons_zero]
    push_cast
    ring
  have h2 : latticeTerm G2 perm permMod12 1073741824 1073741825
      (1073741824 - (2147483648 + 1 / 2) * G2)
      (1073741824 + 1 / 2 - (2147483648 + 1 / 2) * G2) = (1 / 3) ^ 4 * ((1 - G2) / 2) := by
    unfold latticeTerm
    rw [hB, corner_eq_max]
    have ht : (0.5 : ℝ)
        - (1073741824 - (2147483648 + 1 / 2) * G2
            - (((1073741824 : Int) : ℝ) - ((1073741824 + 1073741825 : Int) : ℝ) * G2))
          * (1073741824 - (2147483648 + 1 / 2) * G2
            - (((1073741824 : Int) : ℝ) - ((1073741824 + 1073741825 : Int) : ℝ) * G2))
        - (1073741824 + 1 / 2 - (2147483648 + 1 / 2) * G2
            - (((1073741825 : Int) : ℝ) - ((1073741824 + 1073741825 : Int) : ℝ) * G2))
          * (1073741824 + 1 / 2 - (2147483648 + 1 / 2) * G2
            - (((1073741825 : Int) : ℝ) - ((1073741824 + 1073741825 : Int) : ℝ) * G2))
        = 1 / 3 := by
      push_cast
      norm_num
      linear_combination (1 / 4 : ℝ) * hG
    rw [ht, max_eq_left (by norm_num)]
    simp only [grad3, dot, List.getD_cons_succ, List.getD_cons_zero]
    push_cast
    ring
  rw [h0, h1, h2]
  ring

/-- With such tables `noise(x + e, y)` does not tend to `noise(x, y)` as `e` tends
to 0 at the point with skewed coordinates `(2^30, 2^30 + 1/2)`: the value there
is 0 and the limit from the left is `35/81`. -/
theorem jump_at_overflow (perm permMod12 : List Nat) (hD : Doubled perm permMod12)
    (hA : hashIdx perm permMod12 1073741824 1073741824 = 5)
    (hB : hashIdx perm permMod12 1073741824 1073741825 = 11) :
    ¬ Filter.Tendsto
      (fun e : ℝ => noiseValue F2 G2 perm permMod12
        (1073741824 - (2147483648 + 1 / 2) * G2 + e)
        (1073741824 + 1 / 2 - (2147483648 + 1 / 2) * G2))
      (nhds 0)
      (nhds (noiseValue F2 G2 perm permMod12 (1073741824 - (2147483648 + 1 / 2) * G2)
        (1073741824 + 1 / 2 - (2147483648 + 1 / 2) * G2))) := by
  intro h
  rw [noiseValue_at_overflow] at h
  have hpath : Continuous (fun e : ℝ =>
      ((1073741824 - (2147483648 + 1 / 2) * G2 + e,
        1073741824 + 1 / 2 - (2147483648 + 1 / 2) * G2) : ℝ × ℝ)) := by fun_prop
  have hFn : Continuous (fun e : ℝ =>
      70 * (latticeTerm G2 perm permMod12 1073741823 1073741824
            (1073741824 - (2147483648 + 1 / 2) * G2 + e)
            (1073741824 + 1 / 2 - (2147483648 + 1 / 2) * G2)
          + latticeTerm G2 perm permMod12 1073741824 1073741824
            (1073741824 - (2147483648 + 1 / 2) * G2 + e)
            (1073741824 + 1 / 2 - (2147483648 + 1 / 2) * G2)
          + latticeTerm G2 perm permMod12 1073741824 1073741825
            (1073741824 - (2147483648 + 1 / 2) * G2 + e)
            (1073741824 + 1 / 2 - (2147483648 + 1 / 2) * G2))) :=
    continuous_const.mul
      ((((latticeTerm_continuous perm permMod12 1073741823 1073741824).comp hpath).add
        ((latticeTerm_continuous perm permMod12 1073741824 1073741824).comp hpath)).add
        ((latticeTerm_continuous perm permMod12 1073741824 1073741825).comp hpath))
  have hlim := (hFn.tendsto 0).mono_left (nhdsWithin_le_nhds (s := Set.Iio (0 : ℝ)))
  simp only [add_zero] at hlim
  rw [left_value_at_overflow perm permMod12 hA hB] at hlim
  have hev : (fun e : ℝ => noiseValue F2 G2 perm permMod12
        (1073741824 - (2147483648 + 1 / 2) * G2 + e)
        (1073741824 + 1 / 2 - (2147483648 + 1 / 2) * G2))
      =ᶠ[nhdsWithin 0 (Set.Iio (0 : ℝ))] (fun e : ℝ =>
      70 * (latticeTerm G2 perm permMod12 1073741823 1073741824
            (1073741824 - (2147483648 + 1 / 2) * G2 + e)
            (1073741824 + 1 / 2 - (2147483648 + 1 / 2) * G2)
          + latticeTerm G2 perm permMod12 1073741824 1073741824
            (1073741824 - (2147483648 + 1 / 2) * G2 + e)
            (1073741824 + 1 / 2 - (2147483648 + 1 / 2) * G2)
          + latticeTerm G2 perm permMod12 1073741824 1073741825
            (1073741824 - (2147483648 + 1 / 2) * G2 + e)
            (1073741824 + 1 / 2 - (2147483648 + 1 / 2) * G2))) := by
    have hmem : Set.Ioo (-1 / 4 : ℝ) 0 ∈ nhdsWithin 0 (Set.Iio (0 : ℝ)) :=
      Ioo_mem_nhdsWithin_Iio (by norm_num)
    exact Filter.eventually_of_mem hmem
      (fun e he => noiseValue_left_of_overflow perm permMod12 hD e he.1 he.2)
  have h1 := (h.mono_left (nhdsWithin_le_nhds (s := Set.Iio (0 : ℝ)))).congr' hev
  have := tendsto_nhds_unique h1 hlim
  norm_num at this


theorem tendsto_shift_of_continuousAt (g : ℝ × ℝ → ℝ) (x y : ℝ)
    (hc : ContinuousAt g (x, y)) :
    Filter.Tendsto (fun e : ℝ => g (x + e, y)) (nhds 0) (nhds (g (x, y))) := by
  have hpath : Continuous (fun e : ℝ => ((x + e, y) : ℝ × ℝ)) := by fun_prop
  have hp := hpath.tendsto' 0 (x, y) (by simp)
  exact hc.tendsto.comp hp

theorem noiseValue_tendsto (perm permMod12 : List Nat) (hD : Doubled perm permMod12)
    (x y : ℝ) (hx : |x + (x + y) * F2| < 1073741824)
    (hy : |y + (x + y) * F2| < 1073741824) :
    Filter.Tendsto (fun e : ℝ => noiseValue F2 G2 perm permMod12 (x + e) y) (nhds 0)
      (nhds (noiseValue F2 G2 perm permMod12 x y)) :=
  tendsto_shift_of_continuousAt (fun q : ℝ × ℝ => noiseValue F2 G2 perm permMod12 q.1 q.2)
    x y (noiseValue_continuousAt perm permMod12 hD x y hx hy)

theorem generatePerm_doubled {σ : Type} (rng : Rng σ) (seed : Nat) (st : State σ)
    (hw : st.WF) :
    Doubled (generatePerm rng seed st).perm (generatePerm rng seed st).permMod12 := by
  have hh : ∀ k, k < 256 → (generatePerm rng seed st).perm.getD (k + 256) 0
      = (generatePerm rng seed st).perm.getD k 0 := by
    intro k hk
    rw [generatePerm_perm_getD rng seed st hw k (by omega),
      generatePerm_perm_getD rng seed st hw (k + 256) (by omega)]
    simp
  refine ⟨hh, ?_, ?_⟩
  · intro k hk
    rw [generatePerm_permMod12_getD rng seed st hw (k + 256) (by omega),
      generatePerm_permMod12_getD rng seed st hw k (by omega), hh k hk]
  · intro k
    exact getD_lt_of_bound _ (generatePerm_wf rng seed st hw).2.2.1 k

theorem swapAt_self (a : List Nat) (i : Nat) : swapAt a i i = a := by
  unfold swapAt
  simp only [List.set_set]
  by_cases h : i < a.length
  · rw [List.getD_eq_getElem _ _ h]
    apply List.ext_getElem
    · simp
    · intro n h1 h2
      rw [List.getElem_set]
      split_ifs with hh
      · subst hh; rfl
      · rfl
  · exact List.set_eq_of_length_le (not_lt.mp h)

theorem shuffleLoop_topRng : ∀ (n : Nat) (acc : List Nat × Unit),
    shuffleLoop topRng n acc = acc
  | 0, _ => rfl
  | n + 1, acc => by
    simp only [shuffleLoop, topRng, Nat.add_sub_cancel, swapAt_self]
    exact shuffleLoop_topRng n acc

/-- With the generator `topRng` every swap is trivial and the tables are the base
table `p`, twice. -/
theorem topRng_perm_getD (seed : Nat) (i : Nat) (hi : i < 512) :
    (generatePerm topRng seed (initialState ())).perm.getD i 0 = p.getD (i % 256) 0 := by
  rw [generatePerm_perm_getD topRng seed _ (initialState_wf ()) i hi, shuffleLoop_topRng]

set_option maxRecDepth 100000 in
theorem p_entries : p.getD 0 0 = 151 ∧ p.getD 1 0 = 160 ∧ p.getD 151 0 % 12 = 5 ∧
    p.getD 160 0 % 12 = 11 := by decide

theorem topRng_hash :
    hashIdx (generatePerm topRng 0 (initialState ())).perm
      (generatePerm topRng 0 (initialState ())).permMod12 1073741824 1073741824 = 5 ∧
    hashIdx (generatePerm topRng 0 (initialState ())).perm
      (generatePerm topRng 0 (initialState ())).permMod12 1073741824 1073741825 = 11 := by
  obtain ⟨h0, h1, h2, h3⟩ := p_entries
  have e0 : ((1073741824 : Int) % 256).toNat = 0 := by decide
  have e1 : ((1073741825 : Int) % 256).toNat = 1 := by decide
  unfold hashIdx
  rw [e0, e1, topRng_perm_getD 0 0 (by norm_num), topRng_perm_getD 0 1 (by norm_num)]
  simp only [Nat.zero_mod, Nat.one_mod_eq_one.mpr (by norm_num : (256 : Nat) ≠ 1), h0, h1,
    zero_add]
  rw [generatePerm_permMod12_getD topRng 0 _ (initialState_wf ()) 151 (by norm_num),
    generatePerm_permMod12_getD topRng 0 _ (initialState_wf ()) 160 (by norm_num),
    topRng_perm_getD 0 151 (by norm_num), topRng_perm_getD 0 160 (by norm_num)]
  exact ⟨h2, h3⟩

/-- **C8 (counterexample).** On the tables that `generatePerm` builds when every
draw `random(i + 1)` is `i` (the base table `p`, twice), `noise` is not
continuous at the point whose skewed coordinates are `(2^30, 2^30 + 1/2)`:
there `i + j = 2^31` wraps in `int32_t` and `noise` is 0, while just left of it
`i + j = 2^31 - 1` and `noise` tends to `35/81`; so `noise(x + e, y)` does not
tend to `noise(x, y)` as `e` tends to 0. -/
theorem noise_not_continuous_at_overflow :
    noiseValue F2 G2 (generatePerm topRng 0 (initialState ())).perm
      (generatePerm topRng 0 (initialState ())).permMod12
      (1073741824 - (2147483648 + 1 / 2) * G2)
      (1073741824 + 1 / 2 - (2147483648 + 1 / 2) * G2) = 0 ∧
    ¬ Filter.Tendsto
      (fun e : ℝ => noiseValue F2 G2 (generatePerm topRng 0 (initialState ())).perm
        (generatePerm topRng 0 (initialState ())).permMod12
        (1073741824 - (2147483648 + 1 / 2) * G2 + e)
        (1073741824 + 1 / 2 - (2147483648 + 1 / 2) * G2))
      (nhds 0)
      (nhds (noiseValue F2 G2 (generatePerm topRng 0 (initialState ())).perm
        (generatePerm topRng 0 (initialState ())).permMod12
        (1073741824 - (2147483648 + 1 / 2) * G2)
        (1073741824 + 1 / 2 - (2147483648 + 1 / 2) * G2))) :=
  ⟨noiseValue_at_overflow _ _,
    jump_at_overflow _ _ (generatePerm_doubled topRng 0 _ (initialState_wf ()))
      topRng_hash.1 topRng_hash.2⟩

/-- **C8 (amended).** For fixed tables produced by `generatePerm`, `noise(x, y)` is
a continuous function of `(x, y)` over the reals on the open set of points whose
skewed coordinates `x + s`, `y + s` (with `s = (x + y) * F2`) are below `2^30` in
absolute value, across simplex cell edges and integer cell boundaries alike; at
every such point `noise(x + e, y)` tends to `noise(x, y)` as `e` tends to 0. -/
theorem noise_continuousOn {σ : Type} (rng : Rng σ) (seed : Nat) (st : State σ)
    (hw : st.WF) :
    ContinuousOn
      (fun q : ℝ × ℝ => noiseValue F2 G2 (generatePerm rng seed st).perm
        (generatePerm rng seed st).permMod12 q.1 q.2)
      {q : ℝ × ℝ | |q.1 + (q.1 + q.2) * F2| < 1073741824 ∧
        |q.2 + (q.1 + q.2) * F2| < 1073741824} ∧
    ∀ x y : ℝ, |x + (x + y) * F2| < 1073741824 → |y + (x + y) * F2| < 1073741824 →
      Filter.Tendsto
        (fun e : ℝ => noiseValue F2 G2 (generatePerm rng seed st).perm
          (generatePerm rng seed st).permMod12 (x + e) y)
        (nhds 0)
        (nhds (noiseValue F2 G2 (generatePerm rng seed st).perm
          (generatePerm rng seed st).permMod12 x y)) := by
  have hD := generatePerm_doubled rng seed st hw
  refine ⟨?_, ?_⟩
  · rintro ⟨x, y⟩ ⟨hx, hy⟩
    exact (noiseValue_continuousAt _ _ hD x y hx hy).continuousWithinAt
  · intro x y hx hy
    exact noiseValue_tendsto _ _ hD x y hx hy

theorem noise_continuousOn_witness :
    (initialState (0 : Nat)).WF ∧
    |(1 : ℝ) + (1 + 0.3) * F2| < 1073741824 ∧ |(0.3 : ℝ) + (1 + 0.3) * F2| < 1073741824 ∧
    Filter.Tendsto
      (fun e : ℝ => noiseValue F2 G2 (generatePerm parkMiller 42 (initialState 0)).perm
        (generatePerm parkMiller 42 (initialState 0)).permMod12 (1 + e) 0.3)
      (nhds 0)
      (nhds (noiseValue F2 G2 (generatePerm parkMiller 42 (initialState 0)).perm
        (generatePerm parkMiller 42 (initialState 0)).permMod12 1 0.3)) :=
  have h1 : |(1 : ℝ) + (1 + 0.3) * F2| < 1073741824 := by
    obtain ⟨f1, f2⟩ := F2_bounds
    rw [abs_lt]; constructor <;> nlinarith
  have h2 : |(0.3 : ℝ) + (1 + 0.3) * F2| < 1073741824 := by
    obtain ⟨f1, f2⟩ := F2_bounds
    rw [abs_lt]; constructor <;> nlinarith
  ⟨initialState_wf 0, h1, h2,
    (noise_continuousOn parkMiller 42 (initialState 0) (initialState_wf 0)).2 1 0.3 h1 h2⟩

/-! ### The fractal sum against its reference -/

theorem noise_state_initialized {σ : Type} {K : Type} [LinearOrderedField K] [FloorRing K]
    (rng : Rng σ) (F2 G2 : K) (millis : Nat) (st : State σ) (x y : K) :
    (noise rng F2 G2 millis st x y).2.initialized = true := by
  unfold noise
  cases h : st.initialized <;> simp [h, initDefault, init]

/-- The loop of `fbm` on a state in which the engine is seeded. -/
theorem fbmLoop_seeded {σ : Type} {K : Type} [LinearOrderedField K] [FloorRing K]
    (rng : Rng σ) (F2 G2 : K) (millis : Nat) (x y p : K) :
    ∀ (n : Nat) (a : FbmAcc σ K), a.st.initialized = true →
      fbmLoop rng F2 G2 millis x y p n a
        = { total := a.total + (Finset.range n).sum fun k =>
              noiseValue F2 G2 a.st.perm a.st.permMod12
                (x * (a.frequency * 2 ^ k)) (y * (a.frequency * 2 ^ k)) * (a.amplitude * p ^ k)
            frequency := a.frequency * 2 ^ n
            amplitude := a.amplitude * p ^ n
            maxValue := a.maxValue + (Finset.range n).sum fun k => a.amplitude * p ^ k
            st := a.st }
  | 0, a, _ => by simp [fbmLoop]
  | n + 1, a, h => by
    have h2 : (2.0 : K) = 2 := by norm_num
    rw [fbmLoop, fbmLoop_seeded rng F2 G2 millis x y p n _ (by
      simp only [fbmStep, noise_of_initialized rng F2 G2 millis a.st _ _ h]; exact h)]
    simp only [fbmStep, noise_of_initialized rng F2 G2 millis a.st _ _ h, h2]
    rw [Finset.sum_range_succ' _ n, Finset.sum_range_succ' _ n]
    have e1 : ∀ k : Nat, a.frequency * 2 * 2 ^ k = a.frequency * 2 ^ (k + 1) := fun k => by ring
    have e2 : ∀ k : Nat, a.amplitude * p * p ^ k = a.amplitude * p ^ (k + 1) := fun k => by ring
    simp only [e1, e2, pow_zero, mul_one]
    congr 1 <;> ring


/-- For at least one octave `fbm` is its reference definition, evaluated with the
values that `noise` returns from the state before the call. -/
theorem fbm_eq_reference {σ : Type} {K : Type} [LinearOrderedField K] [FloorRing K]
    (rng : Rng σ) (F2 G2 : K) (millis : Nat) (st : State σ) (x y : K) (octaves : Int)
    (p : K) (h : 1 ≤ octaves) :
    fbm rng F2 G2 millis st x y octaves p
      = (fbmReference (fun a b => (noise rng F2 G2 millis st a b).1) x y octaves.toNat p,
          (noise rng F2 G2 millis st x y).2) := by
  obtain ⟨n, hn⟩ : ∃ n : Nat, octaves.toNat = n + 1 := ⟨octaves.toNat - 1, by omega⟩
  have h0 : (0.0 : K) = 0 := by norm_num
  have h1 : (1.0 : K) = 1 := by norm_num
  have h2 : (2.0 : K) = 2 := by norm_num
  have hT := noise_state_initialized rng F2 G2 millis st (x * 1) (y * 1)
  unfold fbm fbmReference
  rw [hn, fbmLoop, fbmLoop_seeded rng F2 G2 millis x y p n _ (by simp only [fbmStep, h1]; exact hT)]
  simp only [fbmStep, h0, h1, h2, zero_add, one_mul, mul_one]
  rw [Finset.sum_range_succ' _ n, Finset.sum_range_succ' _ n]
  simp only [pow_zero, one_mul, mul_one]
  congr 1
  congr 1
  · rw [add_comm]
    congr 1
    apply Finset.sum_congr rfl
    intro k _
    have e1 : x * (2 * 2 ^ k) = 2 ^ (k + 1) * x := by ring
    have e2 : y * (2 * 2 ^ k) = 2 ^ (k + 1) * y := by ring
    have e3 : p * p ^ k = p ^ (k + 1) := by ring
    rw [e1, e2, e3, mul_comm]
    rfl
  · rw [add_comm]
    congr 1
    apply Finset.sum_congr rfl
    intro k _
    ring


theorem noise_fst_abs_le_one {σ : Type} (rng : Rng σ) (millis : Nat) (st : State σ)
    (x y : ℝ) : |(noise rng F2 G2 millis st x y).1| ≤ 1 :=
  noiseValue_abs_le_one _ _ x y

/-- With non-negative weights `p^k`, the first of which is 1, the weighted mean
of values in `[-1, 1]` is in `[-1, 1]`. -/
theorem fbmReference_range (noiseAt : ℝ → ℝ → ℝ) (hn : ∀ a b, |noiseAt a b| ≤ 1)
    (x y : ℝ) (n : Nat) (p : ℝ) (h1 : 1 ≤ n) (hp : 0 ≤ p) :
    1 ≤ (Finset.range n).sum (fun k => p ^ k) ∧
      ∃ v, fbmReference noiseAt x y n p = some v ∧ -1 ≤ v ∧ v ≤ 1 := by
  obtain ⟨m, rfl⟩ : ∃ m : Nat, n = m + 1 := ⟨n - 1, by omega⟩
  have hs : 1 ≤ (Finset.range (m + 1)).sum (fun k => p ^ k) := by
    rw [Finset.sum_range_succ']
    have : 0 ≤ (Finset.range m).sum (fun k => p ^ (k + 1)) :=
      Finset.sum_nonneg fun k _ => pow_nonneg hp _
    simp only [pow_zero]
    linarith
  have hpos : 0 < (Finset.range (m + 1)).sum (fun k => p ^ k) := by linarith
  have habs : |(Finset.range (m + 1)).sum
      (fun k => p ^ k * noiseAt ((2 : ℝ) ^ k * x) ((2 : ℝ) ^ k * y))|
      ≤ (Finset.range (m + 1)).sum (fun k => p ^ k) := by
    refine le_trans (Finset.abs_sum_le_sum_abs _ _) (Finset.sum_le_sum fun k _ => ?_)
    rw [abs_mul, abs_of_nonneg (pow_nonneg hp k)]
    exact mul_le_of_le_one_right (pow_nonneg hp k) (hn _ _)
  refine ⟨hs, (Finset.range (m + 1)).sum
      (fun k => p ^ k * noiseAt ((2 : ℝ) ^ k * x) ((2 : ℝ) ^ k * y))
    / (Finset.range (m + 1)).sum (fun k => p ^ k), ?_, ?_, ?_⟩
  · unfold fbmReference fdiv
    rw [if_neg (ne_of_gt hpos)]
  · rw [le_div_iff₀ hpos]
    linarith [(abs_le.mp habs).1]
  · rw [div_le_iff₀ hpos]
    linarith [(abs_le.mp habs).2]

/-- **C11 (counterexample).** Every noise value lies in `[-1, 1]`, yet with
`persistence = -1` and `octaves = 2` the accumulated amplitude `maxValue` is
`1 + (-1) = 0`, and `fbm` returns the quotient by zero, which is no real
number. -/
theorem fbm_negative_persistence_zero_amplitude :
    (∀ a b : ℝ, |(noise parkMiller F2 G2 7 (initialState 0) a b).1| ≤ 1) ∧
    (fbmLoop parkMiller F2 G2 7 0 0 (-1) (2 : Int).toNat
      { total := 0.0, frequency := 1.0, amplitude := 1.0, maxValue := 0.0,
        st := initialState 0 }).maxValue = 0 ∧
    (fbm parkMiller F2 G2 7 (initialState 0) 0 0 2 (-1)).1 = none := by
  refine ⟨fun a b => noise_fst_abs_le_one parkMiller 7 (initialState 0) a b, ?_, ?_⟩
  · have e : (2 : Int).toNat = 2 := rfl
    rw [e]
    simp only [fbmLoop, fbmStep]
    norm_num
  · rw [fbm_eq_reference parkMiller F2 G2 7 (initialState 0) 0 0 2 (-1) (by norm_num)]
    have e : (2 : Int).toNat = 2 := rfl
    simp only [fbmReference, fdiv, e, Finset.sum_range_succ, Finset.sum_range_zero]
    norm_num

/-- **C11 (amended).** For every `octaves >= 1` and every `persistence >= 0` the
accumulated amplitude `maxValue` is at least 1, hence non-zero, and
`-1 <= fbm(x, y, octaves, persistence) <= 1` over the reals. -/
theorem fbm_range {σ : Type} (rng : Rng σ) (millis : Nat) (st : State σ) (x y : ℝ)
    (octaves : Int) (p : ℝ) (h1 : 1 ≤ octaves) (hp : 0 ≤ p) :
    1 ≤ (fbmLoop rng F2 G2 millis x y p octaves.toNat
      { total := 0.0, frequency := 1.0, amplitude := 1.0, maxValue := 0.0,
        st := st }).maxValue ∧
    ∃ v, (fbm rng F2 G2 millis st x y octaves p).1 = some v ∧ -1 ≤ v ∧ v ≤ 1 := by
  have hr := fbmReference_range (fun a b => (noise rng F2 G2 millis st a b).1)
    (fun a b => noise_fst_abs_le_one rng millis st a b) x y octaves.toNat p (by omega) hp
  refine ⟨?_, ?_⟩
  · obtain ⟨n, hn⟩ : ∃ n : Nat, octaves.toNat = n + 1 := ⟨octaves.toNat - 1, by omega⟩
    have hT := noise_state_initialized rng F2 G2 millis st (x * 1) (y * 1)
    have h0 : (0.0 : ℝ) = 0 := by norm_num
    have h1' : (1.0 : ℝ) = 1 := by norm_num
    have hs := hr.1
    rw [hn, Finset.sum_range_succ'] at hs
    rw [hn, fbmLoop, fbmLoop_seeded rng F2 G2 millis x y p n _
      (by simp only [fbmStep, h1']; exact hT)]
    simp only [fbmStep, h0, h1', zero_add, one_mul, pow_zero] at hs ⊢
    have e : (Finset.range n).sum (fun k => p * p ^ k)
        = (Finset.range n).sum (fun k => p ^ (k + 1)) :=
      Finset.sum_congr rfl fun k _ => by ring
    rw [e]
    linarith
  · rw [fbm_eq_reference rng F2 G2 millis st x y octaves p h1]
    exact hr.2

theorem fbm_range_witness :
    (1 : Int) ≤ 3 ∧ (0 : ℝ) ≤ 0.5 ∧
    ∃ v, (fbm parkMiller F2 G2 7 (initialState 0) 1 0.3 3 0.5).1 = some v ∧ -1 ≤ v ∧ v ≤ 1 :=
  ⟨by norm_num, by norm_num,
    (fbm_range parkMiller 7 (initialState 0) 1 0.3 3 0.5 (by norm_num) (by norm_num)).2⟩

/-- **C12.** `fbm` equals its reference definition: for every `octaves = n >= 1`,
persistence `p` and point `(x, y)`, the value of `fbm(x, y, n, p)` is the sum
over `k` in `[0, n)` of `p^k * noise(2^k * x, 2^k * y)` divided by the sum over
`k` in `[0, n)` of `p^k` (amplitude and frequency start at 1.0, the frequency
doubles each octave); the state after the call is the state after the first
`noise` call. -/
theorem fbm_reference {σ : Type} {K : Type} [LinearOrderedField K] [FloorRing K]
    (rng : Rng σ) (F2 G2 : K) (millis : Nat) (st : State σ) (x y : K) (octaves : Int)
    (p : K) (h : 1 ≤ octaves) :
    (fbm rng F2 G2 millis st x y octaves p).1
      = fdiv
          ((Finset.range octaves.toNat).sum fun k =>
            p ^ k * (noise rng F2 G2 millis st ((2 : K) ^ k * x) ((2 : K) ^ k * y)).1)
          ((Finset.range octaves.toNat).sum fun k => p ^ k) ∧
    (fbm rng F2 G2 millis st x y octaves p).1
      = fbmReference (fun a b => (noise rng F2 G2 millis st a b).1) x y octaves.toNat p ∧
    (fbm rng F2 G2 millis st x y octaves p).2 = (noise rng F2 G2 millis st x y).2 := by
  rw [fbm_eq_reference rng F2 G2 millis st x y octaves p h]
  exact ⟨rfl, rfl, rfl⟩

theorem fbm_reference_witness :
    (1 : Int) ≤ 3 ∧
    (fbm parkMiller F2 G2 7 (initialState 0) 1 0.3 3 0.5).1
      = fbmReference (fun a b => (noise parkMiller F2 G2 7 (initialState 0) a b).1)
          1 0.3 (3 : Int).toNat 0.5 :=
  ⟨by norm_num,
    (fbm_reference parkMiller F2 G2 7 (initialState 0) 1 0.3 3 0.5 (by norm_num)).2.1⟩

/-! ### Remapping -/

/-- **C13 (counterexample).** In binary64 the endpoint identities do not hold
for every `min` and `max`: `mapNoise(1, 0.3, 0.9)` is `0.9000000000000001`, the
double next above `0.9`, and `mapNoise(0, 0.1, 0.7)` is `0.4` where
`(0.1 + 0.7) / 2` is `0.39999999999999997`. -/
theorem mapNoise_binary64_endpoints :
    mapNoise (1 : F64) 0.3 0.9 = F64.fin (8106479329266894 / 9007199254740992) ∧
    (0.9 : F64) = F64.fin (8106479329266893 / 9007199254740992) ∧
    mapNoise (1 : F64) 0.3 0.9 ≠ 0.9 ∧
    mapNoise (0 : F64) 0.1 0.7 = F64.fin (7205759403792794 / 18014398509481984) ∧
    ((0.1 : F64) + 0.7) / 2 = F64.fin (7205759403792793 / 18014398509481984) ∧
    mapNoise (0 : F64) 0.1 0.7 ≠ ((0.1 : F64) + 0.7) / 2 := by
  decide!

/-- **C13 (amended).** Remap endpoints, in exact arithmetic (over the reals, or
any ordered field): for every `min` and `max`, `mapNoise(-1, min, max) = min`,
`mapNoise(1, min, max) = max` and `mapNoise(0, min, max) = (min + max) / 2`; in
particular `mapNoise(-1, 10, 20) = 10`, `mapNoise(1, 10, 20) = 20` and
`mapNoise(0, 10, 20) = 15`, and these three instances also hold exactly in
binary64. -/
theorem mapNoise_endpoints {K : Type} [LinearOrderedField K] [FloorRing K] :
    (∀ min max : K, mapNoise (-1) min max = min ∧ mapNoise 1 min max = max ∧
      mapNoise 0 min max = (min + max) / 2) ∧
    (mapNoise (-1 : K) 10 20 = 10 ∧ mapNoise (1 : K) 10 20 = 20 ∧
      mapNoise (0 : K) 10 20 = 15) ∧
    (mapNoise (-1 : F64) 10 20 = 10 ∧ mapNoise (1 : F64) 10 20 = 20 ∧
      mapNoise (0 : F64) 10 20 = 15) := by
  have h1 : (1.0 : K) = 1 := by norm_num
  have h2 : (2.0 : K) = 2 := by norm_num
  refine ⟨fun min max => ⟨?_, ?_, ?_⟩, ⟨?_, ?_, ?_⟩, by decide!⟩ <;>
    simp only [mapNoise, h1, h2] <;> ring

/-- **C14 (counterexample).** In binary64 `mapNoise` leaves `[min, max]` on
`[-1, 1]`: with `min = 0.3 <= max = 0.9` and `n = 1` the result is above `max`;
and with `min = -1e308 <= max = 1e308` the difference `max - min` overflows, the
result is `+inf` at `n = 0` and NaN at `n = -1`, so that neither the bounds nor
`mapNoise(-1) <= mapNoise(0)` hold. -/
theorem mapNoise_binary64_out_of_range :
    (F64.le 0.3 0.9 = true ∧ F64.le (-1) 1 = true ∧ F64.le 1 1 = true ∧
      F64.le (mapNoise (1 : F64) 0.3 0.9) 0.9 = false) ∧
    (F64.le (-1e308) 1e308 = true ∧ F64.le (-1) 0 = true ∧ F64.le 0 1 = true ∧
      (1e308 : F64) - (-1e308) = F64.pinf ∧
      mapNoise (0 : F64) (-1e308) 1e308 = F64.pinf ∧
      F64.le (mapNoise (0 : F64) (-1e308) 1e308) 1e308 = false ∧
      mapNoise (-1 : F64) (-1e308) 1e308 = F64.nan ∧
      F64.le (-1e308) (mapNoise (-1 : F64) (-1e308) 1e308) = false ∧
      F64.le (mapNoise (-1 : F64) (-1e308) 1e308) (mapNoise (0 : F64) (-1e308) 1e308)
        = false) := by
  decide!

/-- **C14 (amended).** In exact arithmetic (over the reals, or any ordered
field) `mapNoise` maps `[-1, 1]` into `[min, max]`: for `min <= max` and
`-1 <= n <= 1`, `min <= mapNoise(n, min, max) <= max`; it is monotonically
non-decreasing in `n`; and for every `n`, inside `[-1, 1]` or not, the result is
the affine formula `min + (max - min) * (n + 1) / 2`, never clamped (so it
leaves `[min, max]` as soon as `n` leaves `[-1, 1]` and `min < max`). -/
theorem mapNoise_range {K : Type} [LinearOrderedField K] [FloorRing K]
    (min max : K) (h : min ≤ max) :
    (∀ n : K, -1 ≤ n → n ≤ 1 → min ≤ mapNoise n min max ∧ mapNoise n min max ≤ max) ∧
    (∀ n1 n2 : K, n1 ≤ n2 → mapNoise n1 min max ≤ mapNoise n2 min max) ∧
    (∀ n : K, mapNoise n min max = min + (max - min) * (n + 1) / 2) ∧
    (∀ n : K, min < max → 1 < n → max < mapNoise n min max) ∧
    (∀ n : K, min < max → n < -1 → mapNoise n min max < min) := by
  have h1 : (1.0 : K) = 1 := by norm_num
  have h2 : (2.0 : K) = 2 := by norm_num
  have hd : 0 ≤ max - min := sub_nonneg.mpr h
  have e : ∀ n : K, mapNoise n min max = min + (max - min) * (n + 1) / 2 := by
    intro n; simp only [mapNoise, h1, h2]
  refine ⟨?_, ?_, e, ?_, ?_⟩
  · intro n hn1 hn2
    rw [e]
    constructor
    · have : 0 ≤ (max - min) * (n + 1) / 2 :=
        div_nonneg (mul_nonneg hd (by linarith)) (by norm_num)
      linarith
    · have : (max - min) * (n + 1) ≤ (max - min) * 2 :=
        mul_le_mul_of_nonneg_left (by linarith) hd
      linarith
  · intro n1 n2 hn
    rw [e, e]
    have : (max - min) * (n1 + 1) ≤ (max - min) * (n2 + 1) :=
      mul_le_mul_of_nonneg_left (by linarith) hd
    linarith
  · intro n hlt hn
    rw [e]
    have : (max - min) * 2 < (max - min) * (n + 1) :=
      mul_lt_mul_of_pos_left (by linarith) (sub_pos.mpr hlt)
    linarith
  · intro n hlt hn
    rw [e]
    have : (max - min) * (n + 1) < (max - min) * 0 :=
      mul_lt_mul_of_pos_left (by linarith) (sub_pos.mpr hlt)
    linarith

theorem mapNoise_range_witness :
    (10 : ℚ) ≤ 20 ∧ (10 : ℚ) ≤ mapNoise (1 / 2) 10 20 ∧ mapNoise (1 / 2 : ℚ) 10 20 ≤ 20 ∧
      (20 : ℚ) < mapNoise 3 10 20 :=
  ⟨by norm_num,
    ((mapNoise_range (10 : ℚ) 20 (by norm_num)).1 (1 / 2) (by norm_num) (by norm_num)).1,
    ((mapNoise_range (10 : ℚ) 20 (by norm_num)).1 (1 / 2) (by norm_num) (by norm_num)).2,
    (mapNoise_range (10 : ℚ) 20 (by norm_num)).2.2.2.1 3 (by norm_num) (by norm_num)⟩

/-- With `min = -1e308` and `max = 1e308` the binary64 `mapNoise` returns an
infinity or NaN at every argument. -/
theorem mapNoise_not_finite (n : F64) :
    mapNoise n (-1e308) 1e308 = F64.pinf ∨ mapNoise n (-1e308) 1e308 = F64.ninf ∨
      mapNoise n (-1e308) 1e308 = F64.nan := by
  have hd : (1e308 : F64) - (-1e308) = F64.pinf := by decide!
  have h2 : (2.0 : F64) = F64.fin 2 := by decide!
  have h : ∀ t : F64, F64.pinf * t / F64.fin 2 = F64.pinf ∨
      F64.pinf * t / F64.fin 2 = F64.ninf ∨ F64.pinf * t / F64.fin 2 = F64.nan := by
    intro t
    show F64.div (F64.mul F64.pinf t) (F64.fin 2) = F64.pinf ∨
      F64.div (F64.mul F64.pinf t) (F64.fin 2) = F64.ninf ∨
      F64.div (F64.mul F64.pinf t) (F64.fin 2) = F64.nan
    cases t with
    | fin q =>
      by_cases hq : q = 0
      · simp [F64.mul, F64.infTimes, hq, F64.div]
      · by_cases hp : 0 < q
        · simp [F64.mul, F64.infTimes, hq, hp, F64.div]
        · simp [F64.mul, F64.infTimes, hq, hp, F64.div]
    | pinf => simp [F64.mul, F64.div]
    | ninf => simp [F64.mul, F64.div]
    | nan => simp [F64.mul, F64.div]
  unfold mapNoise
  rw [hd, h2]
  rcases h (n + 1.0) with e | e | e <;> rw [e]
  · left; decide!
  · right; left; decide!
  · right; right; decide!

/-- **C15 (counterexample).** In binary64, with `min = -1e308 <= max = 1e308`
the difference `max - min` overflows to `+inf`, and whatever `noise(x, y)`
returns, `scaledNoise(x, y, min, max)` is an infinity or NaN, never a value
between `min` and `max`; it is `+inf` where `noise(x, y)` is `0`. -/
theorem scaledNoise_binary64_overflow :
    F64.le (-1e308) 1e308 = true ∧
    (1e308 : F64) - (-1e308) = F64.pinf ∧
    (∀ (noise64 : F64 → F64 → F64) (x y : F64),
      (F64.le (-1e308) (scaledNoise64 noise64 x y (-1e308) 1e308)
        && F64.le (scaledNoise64 noise64 x y (-1e308) 1e308) 1e308) = false) ∧
    (∀ x y : F64, scaledNoise64 (fun _ _ => 0) x y (-1e308) 1e308 = F64.pinf) := by
  refine ⟨by decide!, by decide!, ?_, ?_⟩
  · intro noise64 x y
    unfold scaledNoise64
    rcases mapNoise_not_finite (noise64 x y) with h | h | h <;> rw [h] <;> decide!
  · intro x y
    show mapNoise (0 : F64) (-1e308) 1e308 = F64.pinf
    decide!

/-- **C15 (amended).** Over the reals `scaledNoise` returns a value between
`min` and `max`: for every point `(x, y)` and every `min <= max`,
`scaledNoise(x, y, min, max) = mapNoise(noise(x, y), min, max)` and
`min <= scaledNoise(x, y, min, max) <= max`. -/
theorem scaledNoise_range {σ : Type} (rng : Rng σ) (millis : Nat) (st : State σ)
    (x y min max : ℝ) (h : min ≤ max) :
    scaledNoise rng F2 G2 millis st x y min max
      = (mapNoise (noise rng F2 G2 millis st x y).1 min max,
          (noise rng F2 G2 millis st x y).2) ∧
    min ≤ (scaledNoise rng F2 G2 millis st x y min max).1 ∧
    (scaledNoise rng F2 G2 millis st x y min max).1 ≤ max := by
  have hn := abs_le.mp (noise_fst_abs_le_one rng millis st x y)
  have h1 : (1.0 : ℝ) = 1 := by norm_num
  have h2 : (2.0 : ℝ) = 2 := by norm_num
  have hd : 0 ≤ max - min := sub_nonneg.mpr h
  refine ⟨rfl, ?_, ?_⟩
  · simp only [scaledNoise, mapNoise, h1, h2]
    have : 0 ≤ (max - min) * ((noise rng F2 G2 millis st x y).1 + 1) / 2 :=
      div_nonneg (mul_nonneg hd (by linarith [hn.1])) (by norm_num)
    linarith
  · simp only [scaledNoise, mapNoise, h1, h2]
    have : (max - min) * ((noise rng F2 G2 millis st x y).1 + 1) ≤ (max - min) * 2 :=
      mul_le_mul_of_nonneg_left (by linarith [hn.2]) hd
    linarith

theorem scaledNoise_range_witness :
    (0 : ℝ) ≤ 180 ∧
    (0 : ℝ) ≤ (scaledNoise parkMiller F2 G2 7 (initialState 0) 1 0.3 0 180).1 ∧
    (scaledNoise parkMiller F2 G2 7 (initialState 0) 1 0.3 0 180).1 ≤ 180 :=
  ⟨by norm_num,
    (scaledNoise_range parkMiller 7 (initialState 0) 1 0.3 0 180 (by norm_num)).2⟩


/-! ### `fastFloor` -/

/-- **C16 (counterexample).** At `x = -2147483648.5` the truncation toward zero is
`-2^31`, which fits `int32_t`, but `x < xi` makes `fastFloor` compute `xi - 1`
below the `int32_t` range: the value wraps to `2^31 - 1`, while the floor of `x`
is `-2^31 - 1`. -/
theorem fastFloor_below_int32 :
    ⌈(-2147483648.5 : ℚ)⌉ = -2147483648 ∧
    toInt32 (-2147483648.5 : ℚ) = -2147483648 ∧
    fastFloor (-2147483648.5 : ℚ) = 2147483647 ∧
    ⌊(-2147483648.5 : ℚ)⌋ = -2147483649 ∧
    fastFloor (-2147483648.5 : ℚ) ≠ ⌊(-2147483648.5 : ℚ)⌋ := by
  have hc : ⌈(-2147483648.5 : ℚ)⌉ = -2147483648 :=
    Int.ceil_eq_iff.mpr ⟨by norm_num, by norm_num⟩
  have hf : ⌊(-2147483648.5 : ℚ)⌋ = -2147483649 :=
    Int.floor_eq_iff.mpr ⟨by norm_num, by norm_num⟩
  have ht : toInt32 (-2147483648.5 : ℚ) = -2147483648 := by
    unfold toInt32
    rw [if_neg (by norm_num), hc]
    decide
  have hff : fastFloor (-2147483648.5 : ℚ) = 2147483647 := by
    unfold fastFloor
    simp only [ht]
    rw [if_pos (by norm_num)]
    decide
  refine ⟨hc, ht, hff, hf, ?_⟩
  rw [hff, hf]
  decide

/-- **C16 (amended).** `fastFloor` is floor, not truncation: for every `x` whose
floor fits in `int32_t`, that is `-2^31 <= x < 2^31` (negative and
exactly-integral inputs included), `fastFloor(x)` is the mathematical floor of
`x`, the greatest integer `<= x`. -/
theorem fastFloor_floor {K : Type} [LinearOrderedField K] [FloorRing K] (x : K)
    (h1 : (-2147483648 : K) ≤ x) (h2 : x < 2147483648) :
    fastFloor x = ⌊x⌋ ∧ ((fastFloor x : Int) : K) ≤ x ∧
      (∀ z : Int, (z : K) ≤ x → z ≤ fastFloor x) := by
  rw [fastFloor_eq_floor x h1 h2]
  exact ⟨rfl, Int.floor_le x, fun z hz => Int.le_floor.mpr hz⟩

theorem fastFloor_floor_witness :
    (-2147483648 : ℚ) ≤ -3 / 2 ∧ (-3 / 2 : ℚ) < 2147483648 ∧
      fastFloor (-3 / 2 : ℚ) = ⌊(-3 / 2 : ℚ)⌋ ∧ ⌊(-3 / 2 : ℚ)⌋ = -2 :=
  ⟨by norm_num, by norm_num,
    (fastFloor_floor (-3 / 2 : ℚ) (by norm_num) (by norm_num)).1,
    Int.floor_eq_iff.mpr ⟨by norm_num, by norm_num⟩⟩

/-! ### Table indexing -/

theorem getD_lt_twelve (l : List Nat) (h : ∀ v ∈ l, v < 12) (k : Nat) : l.getD k 0 < 12 := by
  rw [List.getD_eq_getElem?_getD]
  cases hk : l[k]? with
  | none => simp
  | some w => exact h w (List.getElem?_mem hk)

theorem generatePerm_lt_twelve {σ : Type} (rng : Rng σ) (seed : Nat) (st : State σ)
    (hw : st.WF) : ∀ v ∈ (generatePerm rng seed st).permMod12, v < 12 := by
  intro v hv
  obtain ⟨i, hi, rfl⟩ := List.getElem_of_mem hv
  rw [(generatePerm_length rng seed st hw).2] at hi
  have h := generatePerm_permMod12_getD rng seed st hw i hi
  rw [List.getD_eq_getElem _ _ (by rw [(generatePerm_length rng seed st hw).2]; exact hi)] at h
  rw [h]
  exact Nat.mod_lt _ (by norm_num)

/-- Every reachable state holds two `uint8_t[512]` tables, with the entries of
`permMod12` below 12. -/
theorem reachable_tables {σ : Type} (rng : Rng σ) (st : State σ) (hr : Reachable rng st) :
    st.WF ∧ ∀ v ∈ st.permMod12, v < 12 := by
  induction hr with
  | start g =>
    refine ⟨initialState_wf g, ?_⟩
    intro v hv
    simp only [initialState, List.mem_replicate] at hv
    omega
  | init seed st _ ih =>
    have hw := generatePerm_wf rng seed st ih.1
    have h12 := generatePerm_lt_twelve rng seed st ih.1
    unfold State.WF at hw ⊢
    rw [init_perm, init_permMod12]
    exact ⟨hw, h12⟩
  | reseed seed st _ ih =>
    exact ⟨generatePerm_wf rng seed st ih.1, generatePerm_lt_twelve rng seed st ih.1⟩


/-- **C17.** Table indexing in `noise` never goes out of bounds: in every state
reachable from the state of program start by `init`/`reseed` both tables have
512 entries, and for all cell coordinates `i`, `j` (negative ones included) and
either traversal order `(i1, j1)`, the masked values `ii = i & 255`,
`jj = j & 255` lie in `[0, 255]`, every index used into `perm` and `permMod12`
is below 512, and each gradient index `gi0`, `gi1`, `gi2` is below 12. -/
theorem noise_index_bounds {σ : Type} (rng : Rng σ) (st : State σ)
    (hr : Reachable rng st) (i j : Int) (i1 j1 : Nat)
    (ho : (i1 = 1 ∧ j1 = 0) ∨ (i1 = 0 ∧ j1 = 1)) :
    st.perm.length = 512 ∧ st.permMod12.length = 512 ∧
    bits32 i &&& 255 ≤ 255 ∧ bits32 j &&& 255 ≤ 255 ∧
    (bits32 j &&& 255) + j1 < 512 ∧ (bits32 j &&& 255) + 1 < 512 ∧
    (bits32 i &&& 255) + st.perm.getD (bits32 j &&& 255) 0 < 512 ∧
    (bits32 i &&& 255) + i1 + st.perm.getD ((bits32 j &&& 255) + j1) 0 < 512 ∧
    (bits32 i &&& 255) + 1 + st.perm.getD ((bits32 j &&& 255) + 1) 0 < 512 ∧
    st.permMod12.getD ((bits32 i &&& 255) + st.perm.getD (bits32 j &&& 255) 0) 0 < 12 ∧
    st.permMod12.getD
      ((bits32 i &&& 255) + i1 + st.perm.getD ((bits32 j &&& 255) + j1) 0) 0 < 12 ∧
    st.permMod12.getD
      ((bits32 i &&& 255) + 1 + st.perm.getD ((bits32 j &&& 255) + 1) 0) 0 < 12 := by
  obtain ⟨hw, h12⟩ := reachable_tables rng st hr
  have hi : bits32 i &&& 255 ≤ 255 := by rw [bits32_and_255]; omega
  have hj : bits32 j &&& 255 ≤ 255 := by rw [bits32_and_255]; omega
  have hp := getD_lt_of_bound st.perm hw.2.2.1
  have a := hp (bits32 j &&& 255)
  have b := hp ((bits32 j &&& 255) + j1)
  have c := hp ((bits32 j &&& 255) + 1)
  refine ⟨hw.1, hw.2.1, hi, hj, ?_, ?_, ?_, ?_, ?_, getD_lt_twelve _ h12 _,
    getD_lt_twelve _ h12 _, getD_lt_twelve _ h12 _⟩ <;> omega

theorem noise_index_bounds_witness :
    Reachable parkMiller (reseed parkMiller 42 (initialState 0)) ∧
    ((1 : Nat) = 1 ∧ (0 : Nat) = 0 ∨ (1 : Nat) = 0 ∧ (0 : Nat) = 1) ∧
    (bits32 (-1) &&& 255) + 1
      + (reseed parkMiller 42 (initialState 0)).perm.getD ((bits32 (-1) &&& 255) + 1) 0 < 512 :=
  have hr : Reachable parkMiller (reseed parkMiller 42 (initialState 0)) :=
    Reachable.reseed 42 _ (Reachable.start 0)
  ⟨hr, Or.inl ⟨rfl, rfl⟩,
    (noise_index_bounds parkMiller _ hr (-1) (-1) 1 0 (Or.inl ⟨rfl, rfl⟩)).2.2.2.2.2.2.2.2.1⟩

/-- **C18.** A lattice corner gets the same gradient from every cell that touches
it: on `uint8_t` tables with `perm[k] == perm[k + 256]` and
`permMod12[k] == permMod12[k + 256]` for `k` in `[0, 255]`, and for all integers
`i`, `j`, the index `gi2` computed in cell `(i, j)` equals `gi0` computed in cell
`(i + 1, j + 1)`, and `gi1` computed in cell `(i, j)` for the corner `(i + 1, j)`
resp. `(i, j + 1)` equals `gi0` computed in cell `(i + 1, j)` resp. `(i, j + 1)`,
also when `i & 255` or `j & 255` is 255 and the neighbour wraps to 0. -/
theorem gradient_consistency (perm permMod12 : List Nat) (hD : Doubled perm permMod12)
    (i j : Int) :
    permMod12.getD ((bits32 i &&& 255) + 1 + perm.getD ((bits32 j &&& 255) + 1) 0) 0
      = permMod12.getD
          ((bits32 (i + 1) &&& 255) + perm.getD (bits32 (j + 1) &&& 255) 0) 0 ∧
    permMod12.getD ((bits32 i &&& 255) + 1 + perm.getD ((bits32 j &&& 255) + 0) 0) 0
      = permMod12.getD ((bits32 (i + 1) &&& 255) + perm.getD (bits32 j &&& 255) 0) 0 ∧
    permMod12.getD ((bits32 i &&& 255) + 0 + perm.getD ((bits32 j &&& 255) + 1) 0) 0
      = permMod12.getD ((bits32 i &&& 255) + perm.getD (bits32 (j + 1) &&& 255) 0) 0 := by
  have h11 := hash_step perm permMod12 hD i j 1 1 (by norm_num) (by norm_num)
  have h10 := hash_step perm permMod12 hD i j 1 0 (by norm_num) (by norm_num)
  have h01 := hash_step perm permMod12 hD i j 0 1 (by norm_num) (by norm_num)
  simp only [hashIdx, Nat.cast_one, Nat.cast_zero, add_zero] at h11 h10 h01
  simp only [bits32_and_255, add_zero]
  exact ⟨h11, h10, h01⟩

theorem gradient_consistency_witness :
    Doubled (generatePerm parkMiller 42 (initialState 0)).perm
      (generatePerm parkMiller 42 (initialState 0)).permMod12 ∧
    (generatePerm parkMiller 42 (initialState 0)).permMod12.getD
        ((bits32 255 &&& 255) + 1
          + (generatePerm parkMiller 42 (initialState 0)).perm.getD
              ((bits32 (-1) &&& 255) + 1) 0) 0
      = (generatePerm parkMiller 42 (initialState 0)).permMod12.getD
          ((bits32 (255 + 1) &&& 255)
            + (generatePerm parkMiller 42 (initialState 0)).perm.getD
                (bits32 (-1 + 1) &&& 255) 0) 0 :=
  have hD := generatePerm_doubled parkMiller 42 (initialState 0) (initialState_wf 0)
  ⟨hD, (gradient_consistency _ _ hD 255 (-1)).1⟩


/-! ### Lattice points -/

theorem wrapInt32_sum_cases (i j : Int) (hi1 : -2147483648 ≤ i) (hi2 : i < 2147483648)
    (hj1 : -2147483648 ≤ j) (hj2 : j < 2147483648) :
    wrapInt32 (i + j) = i + j ∨ wrapInt32 (i + j) = i + j + 4294967296 ∨
      wrapInt32 (i + j) = i + j - 4294967296 := by
  unfold wrapInt32
  omega

theorem corner_at_origin (gi : Nat) : corner gi (0 : ℝ) 0 = 0 := by
  rw [corner_eq_max]
  simp [dot]

/-- The skewed coordinates of the lattice point `(i, j)` are `(i, j)`. -/
theorem lattice_point_skew (i j : Int) :
    ((i : ℝ) - ((i : ℝ) + j) * G2) + (((i : ℝ) - ((i : ℝ) + j) * G2)
        + ((j : ℝ) - ((i : ℝ) + j) * G2)) * F2 = i ∧
    ((j : ℝ) - ((i : ℝ) + j) * G2) + (((i : ℝ) - ((i : ℝ) + j) * G2)
        + ((j : ℝ) - ((i : ℝ) + j) * G2)) * F2 = j := by
  have h := skew_unskew
  constructor
  · linear_combination (-((i : ℝ) + j)) * h
  · linear_combination (-((i : ℝ) + j)) * h

/-- The three corner terms when the offsets of the first corner are
`(d G2, d G2)`, with `d` either 0 or the multiple `± 2^32` that a wrapped `i + j`
leaves; the traversal order is then `(0, 1)`. -/
theorem noise_corners_zero (g0 g1 g2 : Nat) (d : ℝ)
    (hd : d = 0 ∨ d = 4294967296 ∨ d = -4294967296) :
    corner g0 (d * G2) (d * G2)
      + corner g1 (d * G2 - ((0 : Nat) : ℝ) + G2) (d * G2 - ((1 : Nat) : ℝ) + G2)
      + corner g2 (d * G2 - 1.0 + 2.0 * G2) (d * G2 - 1.0 + 2.0 * G2) = 0 := by
  obtain ⟨b1, b2⟩ := G2_bounds
  have hG := G2_sq
  rcases hd with rfl | rfl | rfl
  · simp only [zero_mul, corner_at_origin, zero_add]
    rw [corner_eq_zero_of_far, corner_eq_zero_of_far]
    · norm_num
    · norm_num
      nlinarith
    · push_cast
      nlinarith
  · rw [corner_eq_zero_of_far, corner_eq_zero_of_far, corner_eq_zero_of_far]
    · norm_num
    · norm_num
      nlinarith
    · push_cast
      nlinarith
    · nlinarith
  · rw [corner_eq_zero_of_far, corner_eq_zero_of_far, corner_eq_zero_of_far]
    · norm_num
    · norm_num
      nlinarith
    · push_cast
      nlinarith
    · nlinarith

theorem noiseValue_at_lattice (perm permMod12 : List Nat) (i j : Int)
    (hi1 : -2147483648 ≤ i) (hi2 : i < 2147483648)
    (hj1 : -2147483648 ≤ j) (hj2 : j < 2147483648) :
    noiseValue F2 G2 perm permMod12 ((i : ℝ) - ((i : ℝ) + j) * G2)
      ((j : ℝ) - ((i : ℝ) + j) * G2) = 0 := by
  obtain ⟨hs1, hs2⟩ := lattice_point_skew i j
  have hfi : fastFloor (((i : ℝ) - ((i : ℝ) + j) * G2) + (((i : ℝ) - ((i : ℝ) + j) * G2)
      + ((j : ℝ) - ((i : ℝ) + j) * G2)) * F2) = i := by
    rw [hs1, fastFloor_eq_floor _ (by exact_mod_cast hi1) (by exact_mod_cast hi2)]
    exact Int.floor_intCast i
  have hfj : fastFloor (((j : ℝ) - ((i : ℝ) + j) * G2) + (((i : ℝ) - ((i : ℝ) + j) * G2)
      + ((j : ℝ) - ((i : ℝ) + j) * G2)) * F2) = j := by
    rw [hs2, fastFloor_eq_floor _ (by exact_mod_cast hj1) (by exact_mod_cast hj2)]
    exact Int.floor_intCast j
  have h70 : (70.0 : ℝ) = 70 := by norm_num
  unfold noiseValue
  simp only [hfi, hfj, h70]
  have ex : (i : ℝ) - ((i : ℝ) + j) * G2 - ((i : ℝ) - ((wrapInt32 (i + j) : Int) : ℝ) * G2)
      = (((wrapInt32 (i + j) : Int) : ℝ) - ((i : ℝ) + j)) * G2 := by ring
  have ey : (j : ℝ) - ((i : ℝ) + j) * G2 - ((j : ℝ) - ((wrapInt32 (i + j) : Int) : ℝ) * G2)
      = (((wrapInt32 (i + j) : Int) : ℝ) - ((i : ℝ) + j)) * G2 := by ring
  rw [ex, ey]
  have hd : (((wrapInt32 (i + j) : Int) : ℝ) - ((i : ℝ) + j)) = 0 ∨
      (((wrapInt32 (i + j) : Int) : ℝ) - ((i : ℝ) + j)) = 4294967296 ∨
      (((wrapInt32 (i + j) : Int) : ℝ) - ((i : ℝ) + j)) = -4294967296 := by
    rcases wrapInt32_sum_cases i j hi1 hi2 hj1 hj2 with h | h | h <;> rw [h] <;> push_cast
    · left; ring
    · right; left; ring
    · right; right; ring
  generalize (((wrapInt32 (i + j) : Int) : ℝ) - ((i : ℝ) + j)) = d at hd
  have hgt : ¬ (d * G2 > d * G2) := lt_irrefl _
  simp only [hgt, if_false]
  rw [noise_corners_zero _ _ _ d hd]
  ring

/-- **C19.** `noise` vanishes at every simplex lattice point: for all integers
`i`, `j` in the `int32_t` cell range and any tables with the entries of
`permMod12` below 12, `noise(i - (i + j) * G2, j - (i + j) * G2) = 0` over the
reals; in particular `noise(0, 0) = 0`. -/
theorem noise_lattice_zero (perm permMod12 : List Nat) (_h12 : ∀ v ∈ permMod12, v < 12)
    (i j : Int) (hi1 : -2147483648 ≤ i) (hi2 : i < 2147483648)
    (hj1 : -2147483648 ≤ j) (hj2 : j < 2147483648) :
    noiseValue F2 G2 perm permMod12 ((i : ℝ) - ((i : ℝ) + j) * G2)
      ((j : ℝ) - ((i : ℝ) + j) * G2) = 0 ∧
    noiseValue F2 G2 perm permMod12 0 0 = 0 := by
  refine ⟨noiseValue_at_lattice perm permMod12 i j hi1 hi2 hj1 hj2, ?_⟩
  have h := noiseValue_at_lattice perm permMod12 0 0 (by norm_num) (by norm_num)
    (by norm_num) (by norm_num)
  simpa using h

theorem noise_lattice_zero_witness :
    (∀ v ∈ (initialState (0 : Nat)).permMod12, v < 12) ∧
    (-2147483648 : Int) ≤ 3 ∧ (3 : Int) < 2147483648 ∧
    (-2147483648 : Int) ≤ -5 ∧ (-5 : Int) < 2147483648 ∧
    noiseValue F2 G2 (initialState (0 : Nat)).perm (initialState (0 : Nat)).permMod12
      (((3 : Int) : ℝ) - (((3 : Int) : ℝ) + ((-5 : Int) : ℝ)) * G2)
      (((-5 : Int) : ℝ) - (((3 : Int) : ℝ) + ((-5 : Int) : ℝ)) * G2) = 0 :=
  have h12 : ∀ v ∈ (initialState (0 : Nat)).permMod12, v < 12 := by
    intro v hv
    simp only [initialState, List.mem_replicate] at hv
    omega
  ⟨h12, by norm_num, by norm_num, by norm_num, by norm_num,
    (noise_lattice_zero _ _ h12 3 (-5) (by norm_num) (by norm_num) (by norm_num)
      (by norm_num)).1⟩

end SimplexNoise
